import Mathlib

/-!
# Verification of the django-odata expansion parser and query-optimization planner

Shallow embedding of the OData `$select`/`$expand` parsing and queryset-
optimization code of the `django_odata` package (modules `utils.py`,
`native_fields.py`, `optimization.py`, `core.py`), together with theorems
about the properties its specification states.

Strings are modelled as `List Char` (`Str`); Python dicts as association
lists with Python's insert-or-overwrite-in-place semantics; Python
`QuerySet` instances as explicit record values describing the query that
would be issued.
-/

set_option maxRecDepth 4000

namespace DjangoOData

abbrev Str := List Char

/-- Python `str.strip()` whitespace class (ASCII part, which is all the
    grammar ever meets). -/
def isPyWs (c : Char) : Bool :=
  c = ' ' || c = '\t' || c = '\n' || c = '\r' || c = '\x0b' || c = '\x0c'

/-- Drop trailing whitespace (right half of `str.strip()`). -/
def dropTrailWs (l : Str) : Str :=
  l.foldr (fun c acc => if acc.isEmpty && isPyWs c then [] else c :: acc) []

/-- Python `str.strip()`. -/
def pyStrip (l : Str) : Str := dropTrailWs (l.dropWhile isPyWs)

/-- Net parenthesis depth change of a string: `(` counts +1, `)` counts -1. -/
def parenDelta (c : Char) : Int :=
  if c = '(' then 1 else if c = ')' then -1 else 0

def netDepth (l : Str) : Int := (l.map parenDelta).sum

/-- `noTop delim l d = true` iff scanning `l` with the running parenthesis
    counter started at `d`, no occurrence of `delim` is met while the counter
    is 0 (i.e. the tokenizer would never split inside `l`). -/
def noTop (delim : Char) : Str → Int → Bool
  | [], _ => true
  | c :: r, d =>
    if c = '(' then noTop delim r (d + 1)
    else if c = ')' then noTop delim r (d - 1)
    else if c = delim then decide (d ≠ 0) && noTop delim r d
    else noTop delim r d

/-- The shared option-string tokenizer loop of `parse_expand_fields_v2` /
    `_parse_query_options` (utils.py): scan characters, `(` / `)` adjust the
    depth counter, the delimiter splits only at depth 0, everything else is
    accumulated.  `cur` is Python's `current_field` / `current_option`.
    Raw (unstripped, possibly empty) segments are returned; the callers strip
    and filter them. -/
def splitTopAux (delim : Char) : Str → Str → Int → List Str
  | [], _, _ => []
  | c :: rest, cur, d =>
    if c = '(' then splitTopAux delim rest (cur ++ [c]) (d + 1)
    else if c = ')' then splitTopAux delim rest (cur ++ [c]) (d - 1)
    else if c = delim ∧ d = 0 then cur :: splitTopAux delim rest [] d
    else splitTopAux delim rest (cur ++ [c]) d

/-- `for char in s + delim: ...` — the trailing delimiter flushes the last
    segment, exactly as in the Python code. -/
def splitTop (delim : Char) (s : Str) : List Str :=
  splitTopAux delim (s ++ [delim]) [] 0

example : splitTop ',' "a,b(c,d),e".toList = ["a".toList, "b(c,d)".toList, "e".toList] := by
  decide

example : pyStrip "  a b ".toList = "a b".toList := by decide

/-! ## Python dicts as association lists -/

/-- Python `d[k] = v`: overwrite in place if the key exists (keeping its
    position), otherwise append at the end. -/
def insertAssoc {α : Type} : List (Str × α) → Str → α → List (Str × α)
  | [], k, v => [(k, v)]
  | (k', v') :: rest, k, v =>
    if k' = k then (k, v) :: rest else (k', v') :: insertAssoc rest k v

/-- Python `d.get(k)` / `k in d` lookup. -/
def lookupA {α : Type} (k : Str) : List (Str × α) → Option α
  | [] => none
  | (k', v) :: rest => if k' = k then some v else lookupA k rest

/-- Python `k in d` for dicts. -/
def hasKey {α : Type} (k : Str) (m : List (Str × α)) : Bool :=
  (lookupA k m).isSome

/-! ## `utils.py`: the full expansion parser (`parse_expand_fields_v2`) -/

/-- `_parse_single_query_option` (utils.py): split a piece like
    `$select=name,email` on the first `=`, strip both halves, and drop the
    pair (returning the `("", "")` sentinel) when there is no `=` or the key
    does not start with `$`. -/
def parseSingleQueryOption (option : Str) : Str × Str :=
  if '=' ∉ option then ([], [])
  else
    let key := pyStrip (option.takeWhile (· ≠ '='))
    let value := pyStrip ((option.dropWhile (· ≠ '=')).tail)
    if key.head? = some '$' then (key, value) else ([], [])

/-- `_parse_query_options` (utils.py): split the parenthesized option body on
    `;` at depth 0, parse each non-blank piece, keep pairs with a non-empty
    key. -/
def parseQueryOptions (optionsString : Str) : List (Str × Str) :=
  (splitTop ';' optionsString).foldl
    (fun m piece =>
      if pyStrip piece = [] then m
      else
        let kv := parseSingleQueryOption (pyStrip piece)
        if kv.1 = [] then m else insertAssoc m kv.1 kv.2)
    []

/-- First index of `c` in `l` (`str.find`), `none` when absent. -/
def findIdx? (c : Char) (l : Str) : Option Nat :=
  l.findIdx? (· = c)

/-- Last index of `c` in `l` (`str.rfind`), `none` when absent. -/
def rfindIdx? (c : Char) (l : Str) : Option Nat :=
  match findIdx? c l.reverse with
  | none => none
  | some i => some (l.length - 1 - i)

/-- `_parse_single_expand_field_v2` (utils.py): `field_name(options)`.  A
    segment without `(` is a simple field with empty options; a segment with
    `(` but no `)` is malformed and returned literally with empty options;
    otherwise the substring between the first `(` and the last `)` is the
    option body. -/
def parseSingleExpandFieldV2 (field : Str) : Str × List (Str × Str) :=
  let f := pyStrip field
  if '(' ∉ f then (f, [])
  else
    let fieldName := pyStrip (f.takeWhile (· ≠ '('))
    match rfindIdx? ')' f with
    | none => (f, [])
    | some endParen =>
      match findIdx? '(' f with
      | none => (f, [])
      | some startParen =>
        let inner := (f.take endParen).drop (startParen + 1)
        (fieldName, parseQueryOptions inner)

/-- `parse_expand_fields_v2` (utils.py): split the `$expand` string on `,` at
    depth 0 and parse each non-blank segment; duplicate field names
    overwrite. -/
def parseExpandFieldsV2 (expandString : Str) : List (Str × List (Str × Str)) :=
  (splitTop ',' expandString).foldl
    (fun m piece =>
      if pyStrip piece = [] then m
      else
        let fo := parseSingleExpandFieldV2 (pyStrip piece)
        insertAssoc m fo.1 fo.2)
    []

-- The docstring examples of `parse_expand_fields_v2`:
example : parseExpandFieldsV2 "author".toList = [("author".toList, [])] := by decide
example : parseExpandFieldsV2 "author($select=name,email)".toList =
    [("author".toList, [("$select".toList, "name,email".toList)])] := by decide
example : parseExpandFieldsV2 "author($select=name;$filter=active eq true;$top=5)".toList =
    [("author".toList,
      [("$select".toList, "name".toList), ("$filter".toList, "active eq true".toList),
       ("$top".toList, "5".toList)])] := by decide
example : parseExpandFieldsV2 "author,categories($orderby=name)".toList =
    [("author".toList, []), ("categories".toList, [("$orderby".toList, "name".toList)])] := by
  decide
example : parseQueryOptions "$select=name;$expand=posts($top=3)".toList =
    [("$select".toList, "name".toList), ("$expand".toList, "posts($top=3)".toList)] := by decide

/-! ## `native_fields.py`: selection parser and simple expansion parser -/

/-- The `nested[parent]` update of `parse_select_fields`: create the
    parent's list on first sight, then append the child if absent. -/
def addNested : List (Str × List Str) → Str → Str → List (Str × List Str)
  | [], p, c => [(p, [c])]
  | (p', cs) :: rest, p, c =>
    if p' = p then (p', if c ∈ cs then cs else cs ++ [c]) :: rest
    else (p', cs) :: addNested rest p c

/-- One step of the `parse_select_fields` loop on an already stripped,
    non-empty segment. -/
def selectStep (st : List Str × List (Str × List Str)) (f : Str) :
    List Str × List (Str × List Str) :=
  if '.' ∈ f then
    let parent := pyStrip (f.takeWhile (· ≠ '.'))
    let child := pyStrip ((f.dropWhile (· ≠ '.')).tail)
    ((if parent ∈ st.1 then st.1 else st.1 ++ [parent]), addNested st.2 parent child)
  else
    ((if f ∈ st.1 then st.1 else st.1 ++ [f]), st.2)

/-- The cleaned segment list of `parse_select_fields`:
    `[f.strip() for f in select_string.split(',') if f.strip()]`. -/
def selectSegments (s : Str) : List Str :=
  ((s.splitOn ',').map pyStrip).filter (· ≠ [])

/-- `parse_select_fields` (native_fields.py): returns
    `(top_level, nested)`. -/
def parse_select_fields (s : Str) : List Str × List (Str × List Str) :=
  if pyStrip s = [] then ([], [])
  else (selectSegments s).foldl selectStep ([], [])

-- Docstring examples of `parse_select_fields`:
example : parse_select_fields "id,title".toList = (["id".toList, "title".toList], []) := by
  decide
example : parse_select_fields "id,title,author.name,author.email".toList =
    (["id".toList, "title".toList, "author".toList],
     [("author".toList, ["name".toList, "email".toList])]) := by decide

/-- Python `"($select=" in field` substring test. -/
def containsSub (pat l : Str) : Bool :=
  l.tails.any (fun t => pat.isPrefixOf t)

/-- `_parse_single_expand_field` (native_fields.py): unlike the v2 parser it
    only recognizes a nested `$select` option; anything else inside the
    parentheses is flagged and ignored (the field keeps its literal text when
    malformed). -/
def parseSingleExpandFieldNative (field : Str) : Str × Option Str :=
  let f := pyStrip field
  if ¬ containsSub "($select=".toList f then (f, none)
  else
    let fieldName := pyStrip (f.takeWhile (· ≠ '('))
    match rfindIdx? ')' f with
    | none => (f, none)
    | some endParen =>
      match findIdx? '(' f with
      | none => (f, none)
      | some startParen =>
        let inner := (f.take endParen).drop (startParen + 1)
        if "$select=".toList.isPrefixOf inner then (fieldName, some (inner.drop 8))
        else (f, none)

/-- `parse_expand_fields` (native_fields.py): maps each expanded field name to
    its nested `$select` string (or `none`). -/
def parse_expand_fields (expandString : Str) : List (Str × Option Str) :=
  (splitTop ',' expandString).foldl
    (fun m piece =>
      if pyStrip piece = [] then m
      else
        let fs := parseSingleExpandFieldNative (pyStrip piece)
        insertAssoc m fs.1 fs.2)
    []

-- Docstring examples of `parse_expand_fields`:
example : parse_expand_fields "author".toList = [("author".toList, none)] := by decide
example : parse_expand_fields "author($select=name),categories".toList =
    [("author".toList, some "name".toList), ("categories".toList, none)] := by decide

/-! ## `NativeFieldExpansionMixin` (native_fields.py): bounded recursive
    expansion of serializers -/

/-- `MAX_EXPANSION_DEPTH` of `NativeFieldExpansionMixin`. -/
def MAX_EXPANSION_DEPTH : Nat := 3

/-- A serializer class: its `Meta.expandable_fields`, mapping a field name to
    the index (in the class environment) of the related serializer class. -/
structure SerClass where
  expandable : List (Str × Nat)
deriving DecidableEq

/-- An instantiated serializer, reduced to the expanded relation fields it
    adds to `self.fields` (each carrying the related serializer instance). -/
inductive SerNode : Type where
  | mk : List (Str × SerNode) → SerNode

/-- Nesting depth of the expanded-field forest: one `$expand` resolution per
    level. -/
def fieldsDepth : List (Str × SerNode) → Nat
  | [] => 0
  | (_, .mk cs) :: rest => max (1 + fieldsDepth cs) (fieldsDepth rest)

/-- `NativeFieldExpansionMixin._apply_field_expansion`: with the `$expand`
    value from `odata_params` (absent ⇒ nothing), stop once
    `_expansion_depth` reaches `MAX_EXPANSION_DEPTH`; otherwise parse the
    expansion, and for each parsed field present in the class's
    `expandable_fields` instantiate the related serializer with the same
    context (same `$expand` string) at depth + 1.  Returns the expanded
    fields added to `self.fields`. -/
def applyFieldExpansion (env : List SerClass) (cls : Nat) (expandParam : Option Str)
    (depth : Nat) : List (Str × SerNode) :=
  match expandParam with
  | none => []
  | some p =>
    if MAX_EXPANSION_DEPTH ≤ depth then []
    else
      match env.get? cls with
      | none => []
      | some c =>
        if c.expandable = [] then []
        else
          (parse_expand_fields p).foldl
            (fun fields fo =>
              match lookupA fo.1 c.expandable with
              | none => fields
              | some childCls =>
                insertAssoc fields fo.1
                  (SerNode.mk (applyFieldExpansion env childCls (some p) (depth + 1))))
            []
termination_by MAX_EXPANSION_DEPTH - depth
decreasing_by simp_wf; omega

/-! ## `utils.py`: numeric option application (`_apply_top` / `_apply_skip`) -/

/-- One digit-or-underscore group check for CPython base-10 `int()` parsing:
    digits with single underscores strictly between digits. -/
def digitsOk : Str → Bool
  | [] => false
  | l =>
    l.all (fun c => c.isDigit || c = '_') &&
    l.head? ≠ some '_' && l.getLast? ≠ some '_' &&
    ((l.zip l.tail).all fun p => ¬(p.1 = '_' ∧ p.2 = '_'))

def digitsVal (l : Str) : Nat :=
  (l.filter (·.isDigit)).foldl (fun n c => 10 * n + (c.toNat - '0'.toNat)) 0

/-- Python `int(s)` for base 10: optional surrounding whitespace, optional
    sign, digit groups separated by single underscores; `none` models
    `ValueError`. -/
def pyInt? (s : Str) : Option Int :=
  let t := pyStrip s
  match t with
  | '+' :: rest => if digitsOk rest then some (digitsVal rest) else none
  | '-' :: rest => if digitsOk rest then some (-(digitsVal rest : Int)) else none
  | rest => if digitsOk rest then some (digitsVal rest) else none

example : pyInt? "10".toList = some 10 := by decide
example : pyInt? " -5 ".toList = some (-5) := by decide
example : pyInt? "abc".toList = none := by decide
example : pyInt? "".toList = none := by decide

/-- `_apply_top` (utils.py): look up `$top`; apply `queryset[:top]` only when
    the value parses and is strictly positive; otherwise (absent, parse
    failure, or `top <= 0`) the queryset is returned unchanged. -/
def applyTop {α : Type} (queryset : List α) (queryParams : List (Str × Str)) : List α :=
  match lookupA "$top".toList queryParams with
  | none => queryset
  | some v =>
    match pyInt? v with
    | none => queryset
    | some top => if 0 < top then queryset.take top.toNat else queryset

/-- `_apply_skip` (utils.py): look up `$skip`; apply `queryset[skip:]` only
    when the value parses and is strictly positive. -/
def applySkip {α : Type} (queryset : List α) (queryParams : List (Str × Str)) : List α :=
  match lookupA "$skip".toList queryParams with
  | none => queryset
  | some v =>
    match pyInt? v with
    | none => queryset
    | some skip => if 0 < skip then queryset.drop skip.toNat else queryset

/-! ## `parse_odata_query` (utils.py) and the `core.py` entry point

`parse_odata_query` is written for a `QueryDict`/`dict` argument, but
`core.apply_odata_to_queryset` hands it the raw query *string*.  In Python,
`param in query_params` is then a substring test and `query_params[param]`
raises `TypeError` (string indices must be integers).  We model the argument
as either kind of value and indexing as a fallible operation. -/

inductive PyErr : Type where
  | typeError
  | keyError
deriving DecidableEq

instance {ε α : Type} [DecidableEq ε] [DecidableEq α] : DecidableEq (Except ε α) := fun a b =>
  match a, b with
  | .error x, .error y =>
    if h : x = y then .isTrue (by rw [h]) else .isFalse (by intro hc; cases hc; exact h rfl)
  | .error _, .ok _ => .isFalse (by intro hc; cases hc)
  | .ok _, .error _ => .isFalse (by intro hc; cases hc)
  | .ok x, .ok y =>
    if h : x = y then .isTrue (by rw [h]) else .isFalse (by intro hc; cases hc; exact h rfl)

/-- The value handed to `parse_odata_query`: a parsed parameter mapping or a
    raw query string. -/
inductive ParamsArg : Type where
  | dict (d : List (Str × Str))
  | str (s : Str)
deriving DecidableEq

/-- Python `param in query_params`: key test on a dict, substring test on a
    string. -/
def pyIn (param : Str) : ParamsArg → Bool
  | .dict d => hasKey param d
  | .str s => containsSub param s

/-- Python `query_params[param]`. -/
def pyIndex (a : ParamsArg) (param : Str) : Except PyErr Str :=
  match a with
  | .dict d => match lookupA param d with
    | some v => .ok v
    | none => .error .keyError
  | .str _ => .error .typeError

/-- The parameter names `parse_odata_query` probes, in order. -/
def odataQueryOptionNames : List Str :=
  ["$filter".toList, "$orderby".toList, "$top".toList, "$skip".toList,
   "$select".toList, "$expand".toList, "$count".toList, "$search".toList,
   "$format".toList, "omit".toList]

/-- `parse_odata_query` (utils.py): for each known option name, if
    `param in query_params` copy `query_params[param]` into the result dict.
    On a raw string argument the indexing raises `TypeError` as soon as one
    option name occurs as a substring. -/
def parse_odata_query (queryParams : ParamsArg) : Except PyErr (List (Str × Str)) :=
  odataQueryOptionNames.foldl
    (fun acc param => do
      let m ← acc
      if pyIn param queryParams then
        let v ← pyIndex queryParams param
        pure (insertAssoc m param v)
      else
        pure m)
    (.ok [])

example : parse_odata_query (.dict [("$top".toList, "10".toList)]) =
    .ok [("$top".toList, "10".toList)] := by decide
example : parse_odata_query (.str "no options here".toList) = .ok [] := by decide

/-! ## `optimization.py`: the queryset-optimization planner

The Django model metadata the planner inspects is reduced to the capabilities
it actually uses: `_meta.pk.name`, `_meta.get_field`, a field's `attname`
(when present), its `related_model` (when present), the `many_to_one` /
`one_to_one` flags, and `_meta.related_objects` accessor names.  Related
models are referenced by index into a model environment (`ModelEnv`), which
keeps mutually referencing models representable. -/

structure ModelField where
  name : Str
  /-- `field.attname` when `hasattr(field, "attname")`, else `none`. -/
  attname : Option Str
  /-- `hasattr(field, "related_model")`. -/
  hasRelatedModel : Bool
  manyToOne : Bool
  oneToOne : Bool
  /-- `field.related_model` as an environment index (`none` = `None`). -/
  relatedModel : Option Nat
deriving DecidableEq

structure Model where
  /-- `model._meta.pk.name`. -/
  pkName : Str
  /-- The fields `model._meta.get_field` can return. -/
  fields : List ModelField
  /-- `model._meta.related_objects`, as accessor name → related model index. -/
  relatedObjects : List (Str × Nat)
deriving DecidableEq

abbrev ModelEnv := List Model

/-- `model._meta.get_field(name)`; `none` models the `FieldDoesNotExist`
    exception. -/
def getField (m : Model) (name : Str) : Option ModelField :=
  m.fields.find? (fun f => f.name = name)

/-- Python-set insertion (`only_fields.add(x)`), modelled as an
    insertion-ordered duplicate-free list; only membership matters. -/
def addSet (l : List Str) (x : Str) : List Str :=
  if x ∈ l then l else l ++ [x]

/-- `build_only_fields_list` (optimization.py): always the primary key, plus
    the selected names the model recognizes, plus `field.attname` for every
    expanded field that has one. -/
def build_only_fields_list (m : Model) (selectedFields : List Str)
    (expandKeys : List Str) : List Str :=
  let s := addSet [] m.pkName
  let s := selectedFields.foldl
    (fun acc f => if (getField m f).isSome then addSet acc f else acc) s
  expandKeys.foldl
    (fun acc f =>
      match getField m f with
      | some fi =>
        match fi.attname with
        | some an => addSet acc an
        | none => acc
      | none => acc)
    s

/-- `is_forward_relation` (optimization.py): the field exists, has a
    `related_model` attribute, and is many-to-one or one-to-one; every
    exception yields `False`. -/
def is_forward_relation (m : Model) (fieldName : Str) : Bool :=
  match getField m fieldName with
  | none => false
  | some fi => fi.hasRelatedModel && (fi.manyToOne || fi.oneToOne)

/-- `categorize_relations` (optimization.py): forward relations go to
    `select_related`, everything else — including names the model does not
    recognize — goes to `prefetch_related`. -/
def categorize_relations (m : Model) (fieldNames : List Str) : List Str × List Str :=
  fieldNames.partition (is_forward_relation m)

/-- The `only()` entries `apply_related_field_selection` (optimization.py)
    contributes for one `select_related` field: for a non-empty nested
    `$select`, `related__pk` followed by the recognized nested fields; then
    the foreign-key attnames for a nested `$expand`.  Any metadata lookup
    failure silently contributes nothing. -/
def relatedOnlyFieldsFor (env : ModelEnv) (m : Model)
    (expandFields : List (Str × List (Str × Str))) (relatedField : Str) : List Str :=
  match lookupA relatedField expandFields with
  | none => []
  | some opts =>
    let selPart :=
      match lookupA "$select".toList opts with
      | none => []
      | some s =>
        if s = [] then []
        else
          let nestedFields := (parse_select_fields s).1
          match getField m relatedField with
          | none => []
          | some fi =>
            match fi.relatedModel with
            | none => []
            | some idx =>
              match env.get? idx with
              | none => []
              | some rm =>
                (relatedField ++ "__".toList ++ rm.pkName) ::
                  (nestedFields.filter (fun nf => (getField rm nf).isSome)).map
                    (fun nf => relatedField ++ "__".toList ++ nf)
    let expPart :=
      match lookupA "$expand".toList opts with
      | none => []
      | some e =>
        if e = [] then []
        else
          (parse_expand_fields e).foldl
            (fun acc fo =>
              match getField m relatedField with
              | none => acc
              | some fi =>
                match fi.relatedModel with
                | none => acc
                | some idx =>
                  match env.get? idx with
                  | none => acc
                  | some rm =>
                    match getField rm fo.1 with
                    | none => acc
                    | some nfi =>
                      match nfi.attname with
                      | none => acc
                      | some an => acc ++ [relatedField ++ "__".toList ++ an])
            []
    selPart ++ expPart

/-- `apply_related_field_selection` (optimization.py): the `only()` list it
    builds over all `select_related` fields (the existing `only()` fields of
    the main queryset are appended afterwards and the projection is applied
    only when this list is non-empty). -/
def apply_related_field_selection (env : ModelEnv) (m : Model)
    (selectRelatedFields : List Str)
    (expandFields : List (Str × List (Str × Str))) : List Str :=
  (selectRelatedFields.map (relatedOnlyFieldsFor env m expandFields)).flatten

/-- The query a Django `QuerySet` value would issue, reduced to what the
    optimizer can set on a prefetch queryset: the model it runs on, its
    `only()` projection (`[]` = all fields), and any predicate / ordering /
    result window.  `related_model.objects.only(*only_fields)` sets only the
    projection. -/
structure QuerySpec where
  model : Nat
  onlyFields : List Str
  filterExpr : Option Str := none
  orderBy : Option Str := none
  limit : Option Nat := none
  offset : Option Nat := none
deriving DecidableEq

/-- A `Prefetch(field, queryset=...)` object. -/
structure PrefetchSpec where
  prefetchTo : Str
  queryset : QuerySpec
deriving DecidableEq

/-- The `Prefetch` object `apply_prefetch_field_selection` (optimization.py)
    builds for one `prefetch_related` field: only when the field's options
    hold a non-empty `$select` and the related model resolves (via
    `get_field` or the `related_objects` accessor scan); its queryset is
    `related_model.objects.only(pk, *valid nested fields)` — no filter,
    ordering, or window is ever placed on it. -/
def prefetchObjectFor (env : ModelEnv) (m : Model)
    (expandFields : List (Str × List (Str × Str))) (prefetchField : Str) :
    Option PrefetchSpec :=
  match lookupA prefetchField expandFields with
  | none => none
  | some opts =>
    match lookupA "$select".toList opts with
    | none => none
    | some s =>
      if s = [] then none
      else
        let nestedFields := (parse_select_fields s).1
        let rmIdx? :=
          match getField m prefetchField with
          | some fi => fi.relatedModel
          | none => lookupA prefetchField m.relatedObjects
        match rmIdx? with
        | none => none
        | some idx =>
          match env.get? idx with
          | none => none
          | some rm =>
            some ⟨prefetchField,
                  { model := idx,
                    onlyFields :=
                      rm.pkName ::
                        nestedFields.filter (fun nf => (getField rm nf).isSome) }⟩

/-- `apply_prefetch_field_selection` (optimization.py), as the final prefetch
    configuration of the queryset: the optimized `Prefetch` objects plus the
    plain lookups.  When no `Prefetch` object was built the original plain
    `prefetch_related(*fields)` stays; otherwise the lookups are cleared and
    re-issued as the `Prefetch` objects followed by the remaining plain
    names. -/
def apply_prefetch_field_selection (env : ModelEnv) (m : Model)
    (prefetchRelatedFields : List Str)
    (expandFields : List (Str × List (Str × Str))) :
    List PrefetchSpec × List Str :=
  let prefetchObjects := prefetchRelatedFields.filterMap (prefetchObjectFor env m expandFields)
  if prefetchObjects = [] then ([], prefetchRelatedFields)
  else
    (prefetchObjects,
     prefetchRelatedFields.filter
       (fun f => ¬ prefetchObjects.any (fun p => p.prefetchTo = f)))

/-! ## A concrete model environment (the blog example: Author / Post /
    Category) used for witnesses and counterexamples -/

def scalarField (n : Str) : ModelField :=
  { name := n, attname := some n, hasRelatedModel := false,
    manyToOne := false, oneToOne := false, relatedModel := none }

/-- Index 0: the author model; `posts` is a reverse accessor. -/
def authorModel : Model :=
  { pkName := "id".toList,
    fields := [scalarField "id".toList, scalarField "name".toList,
               scalarField "email".toList],
    relatedObjects := [("posts".toList, 1)] }

/-- Index 1: the blog-post model with a forward `author` relation and a
    many-to-many `categories` relation. -/
def postModel : Model :=
  { pkName := "id".toList,
    fields := [scalarField "id".toList, scalarField "title".toList,
               scalarField "content".toList,
               { name := "author".toList, attname := some "author_id".toList,
                 hasRelatedModel := true, manyToOne := true, oneToOne := false,
                 relatedModel := some 0 },
               { name := "categories".toList, attname := some "categories".toList,
                 hasRelatedModel := true, manyToOne := false, oneToOne := false,
                 relatedModel := some 2 }],
    relatedObjects := [] }

/-- Index 2: the category model. -/
def categoryModel : Model :=
  { pkName := "id".toList,
    fields := [scalarField "id".toList, scalarField "name".toList],
    relatedObjects := [] }

def demoEnv : ModelEnv := [authorModel, postModel, categoryModel]

/-! ## Spec-side reconstructions used to state the claims -/

/-- The top-level name a `$select` segment contributes: the (stripped) part
    before the first `.` for a dotted segment, the segment itself
    otherwise. -/
def parentOf (f : Str) : Str :=
  if '.' ∈ f then pyStrip (f.takeWhile (· ≠ '.')) else f

/-- The nested name of a dotted `$select` segment: the (stripped) part after
    the first `.`. -/
def childOf (f : Str) : Str := pyStrip ((f.dropWhile (· ≠ '.')).tail)

/-- The children contributed to `nested[p]` by a segment list, in order. -/
def childrenFor (p : Str) (segs : List Str) : List Str :=
  segs.filterMap fun f =>
    if '.' ∈ f ∧ parentOf f = p then some (childOf f) else none

/-- Keep the first occurrence of each element, drop later duplicates. -/
def firstDedupAux : List Str → List Str → List Str
  | [], _ => []
  | a :: l, seen =>
    if a ∈ seen then firstDedupAux l seen else a :: firstDedupAux l (a :: seen)

def firstDedup (l : List Str) : List Str := firstDedupAux l []

/-- The effect on one `nested` entry of appending a run of children:
    created on the first child, extended keeping first occurrences. -/
def childUpd : Option (List Str) → List Str → Option (List Str)
  | none, cf => if cf = [] then none else some (firstDedupAux cf [])
  | some cs, cf => some (cs ++ firstDedupAux cf cs)

/-- Re-serialize an option map to `key=value;key=value;...` form. -/
def serializeOptions : List (Str × Str) → Str
  | [] => []
  | [e] => e.1 ++ '=' :: e.2
  | e :: es => e.1 ++ '=' :: e.2 ++ ';' :: serializeOptions es

def balancedAux : Str → Int → Bool
  | [], d => decide (d = 0)
  | c :: r, d =>
    if c = '(' then balancedAux r (d + 1)
    else if c = ')' then decide (0 < d) && balancedAux r (d - 1)
    else balancedAux r d

/-- Balanced parentheses: the running depth never goes negative and ends at
    zero. -/
def balancedParens (s : Str) : Bool := balancedAux s 0

/-- The well-formedness every entry of a parsed option map enjoys: non-empty
    `$`-prefixed key without `=`, both halves stripped, and a
    parenthesis-neutral `key=value` rendering containing no top-level `;`. -/
def GoodEntry (k v : Str) : Prop :=
  k ≠ [] ∧ k.head? = some '$' ∧ '=' ∉ k ∧ pyStrip k = k ∧ pyStrip v = v ∧
  netDepth (k ++ '=' :: v) = 0 ∧ noTop ';' (k ++ '=' :: v) 0 = true

/-- A well-formed option map: duplicate-free keys, well-formed entries. -/
def GoodMap (m : List (Str × Str)) : Prop :=
  (m.map Prod.fst).Nodup ∧ ∀ p ∈ m, GoodEntry p.1 p.2

/-! ## Helper lemmas: set/fold membership -/

theorem mem_addSet_self (l : List Str) (x : Str) : x ∈ addSet l x := by
  unfold addSet; split
  · assumption
  · simp

theorem mem_addSet_of_mem {x : Str} (l : List Str) (y : Str) (h : x ∈ l) :
    x ∈ addSet l y := by
  unfold addSet; split
  · exact h
  · exact List.mem_append_left _ h

theorem mem_foldl_of_mem {β : Type} (x : Str) (step : List Str → β → List Str)
    (hpres : ∀ acc b, x ∈ acc → x ∈ step acc b) :
    ∀ (l : List β) (acc : List Str), x ∈ acc → x ∈ l.foldl step acc := by
  intro l
  induction l with
  | nil => intro acc h; simpa using h
  | cons b bs ih => intro acc h; exact ih _ (hpres _ _ h)

theorem mem_foldl_of_step {β : Type} (x : Str) (step : List Str → β → List Str)
    (hpres : ∀ acc b, x ∈ acc → x ∈ step acc b)
    (b : β) (hx : ∀ acc, x ∈ step acc b) :
    ∀ (l : List β) (acc : List Str), b ∈ l → x ∈ l.foldl step acc := by
  intro l
  induction l with
  | nil => intro acc h; cases h
  | cons hd tl ih =>
    intro acc hb
    rcases List.mem_cons.mp hb with rfl | hb'
    · exact mem_foldl_of_mem x step hpres tl _ (hx acc)
    · exact ih _ hb'

/-! ## C1, C2: primary keys and foreign keys in explicit projections -/

/-- C1.  For every model and every non-empty `$select` list (with any
    expansion map), the explicit scalar projection built by
    `build_only_fields_list` contains the model's primary-key name; and every
    per-relation explicit projection — the `related__*` entries built by
    `apply_related_field_selection` for a joined forward relation with a
    non-empty nested `$select`, and the `only()` list of a `Prefetch` object
    built by `apply_prefetch_field_selection` — contains the related model's
    primary-key name. -/
theorem c1_projections_contain_primary_key :
    (∀ (m : Model) (sel expKeys : List Str), sel ≠ [] →
      m.pkName ∈ build_only_fields_list m sel expKeys) ∧
    (∀ (env : ModelEnv) (m : Model) (expandFields : List (Str × List (Str × Str)))
       (srf : List Str) (rf : Str) (opts : List (Str × Str)) (s : Str)
       (fi : ModelField) (idx : Nat) (rm : Model),
      rf ∈ srf →
      lookupA rf expandFields = some opts →
      lookupA "$select".toList opts = some s → s ≠ [] →
      getField m rf = some fi → fi.relatedModel = some idx →
      env.get? idx = some rm →
      (rf ++ "__".toList ++ rm.pkName) ∈
        apply_related_field_selection env m srf expandFields) ∧
    (∀ (env : ModelEnv) (m : Model) (expandFields : List (Str × List (Str × Str)))
       (pfs : List Str) (spec : PrefetchSpec) (rm : Model),
      spec ∈ (apply_prefetch_field_selection env m pfs expandFields).1 →
      env.get? spec.queryset.model = some rm →
      rm.pkName ∈ spec.queryset.onlyFields) := by
  refine ⟨?_, ?_, ?_⟩
  · intro m sel expKeys _
    unfold build_only_fields_list
    apply mem_foldl_of_mem
    · intro acc b h
      cases hf : getField m b with
      | none => simpa [hf] using h
      | some fi =>
        cases ha : fi.attname with
        | none => simpa [hf, ha] using h
        | some an => simpa [hf, ha] using mem_addSet_of_mem _ _ h
    · apply mem_foldl_of_mem
      · intro acc b h
        split
        · exact mem_addSet_of_mem _ _ h
        · exact h
      · exact mem_addSet_self [] m.pkName
  · intro env m expandFields srf rf opts s fi idx rm hrf hlk hsel hs hgf hrel henv
    unfold apply_related_field_selection
    rw [List.mem_flatten]
    refine ⟨relatedOnlyFieldsFor env m expandFields rf, List.mem_map_of_mem _ hrf, ?_⟩
    simp only [relatedOnlyFieldsFor, hlk, hsel, if_neg hs, hgf, hrel, henv]
    exact List.mem_append_left _ (List.mem_cons_self _ _)
  · intro env m expandFields pfs spec rm hmem henv
    have hmem' : spec ∈ pfs.filterMap (prefetchObjectFor env m expandFields) := by
      simp only [apply_prefetch_field_selection] at hmem
      split at hmem
      · simp at hmem
      · exact hmem
    obtain ⟨pf, _, hsome⟩ := List.mem_filterMap.mp hmem'
    simp only [prefetchObjectFor] at hsome
    repeat' split at hsome
    all_goals first
      | exact Option.noConfusion hsome
      | (cases hsome; simp_all [List.mem_cons])

/-- C1 witness: the blog example.  Selecting `title` keeps `id`; expanding
    `author($select=name)` (forward) projects `author__id`; prefetching
    `posts($select=title)` projects the post model's `id`. -/
theorem c1_witness :
    "id".toList ∈
      build_only_fields_list postModel ["title".toList] ["author".toList] ∧
    ("author".toList ++ "__".toList ++ "id".toList) ∈
      apply_related_field_selection demoEnv postModel ["author".toList]
        [("author".toList, [("$select".toList, "name".toList)])] ∧
    "id".toList ∈
      (PrefetchSpec.mk "posts".toList
        { model := 1,
          onlyFields := ["id".toList, "title".toList] }).queryset.onlyFields :=
  ⟨c1_projections_contain_primary_key.1 postModel _ _ (by decide),
   c1_projections_contain_primary_key.2.1 demoEnv postModel
     [("author".toList, [("$select".toList, "name".toList)])]
     ["author".toList] "author".toList [("$select".toList, "name".toList)]
     "name".toList
     { name := "author".toList, attname := some "author_id".toList,
       hasRelatedModel := true, manyToOne := true, oneToOne := false,
       relatedModel := some 0 }
     0 authorModel (by decide) (by decide) (by decide) (by decide) (by decide)
     (by decide) (by decide),
   c1_projections_contain_primary_key.2.2 demoEnv authorModel
     [("posts".toList, [("$select".toList, "title".toList)])]
     ["posts".toList]
     (PrefetchSpec.mk "posts".toList
       { model := 1, onlyFields := ["id".toList, "title".toList] })
     postModel (by decide) (by decide)⟩

/-- C2.  Whenever a field is classified as a forward relation (placed on the
    `select_related` side by `categorize_relations`) and the parent's
    projection is explicit (non-empty `$select`), the relation's foreign-key
    attname is added to the parent's `only()` projection by
    `build_only_fields_list`. -/
theorem c2_forward_join_fk_in_parent_projection :
    ∀ (m : Model) (sel expKeys : List Str) (f : Str) (fi : ModelField) (an : Str),
      sel ≠ [] →
      f ∈ (categorize_relations m expKeys).1 →
      getField m f = some fi → fi.attname = some an →
      an ∈ build_only_fields_list m sel expKeys := by
  intro m sel expKeys f fi an _ hf hgf han
  have hfe : f ∈ expKeys := by
    unfold categorize_relations at hf
    rw [List.partition_eq_filter_filter] at hf
    exact (List.mem_filter.mp hf).1
  unfold build_only_fields_list
  apply mem_foldl_of_step (b := f)
  · intro acc b h
    cases hb : getField m b with
    | none => simpa [hb] using h
    | some fj =>
      cases ha : fj.attname with
      | none => simpa [hb, ha] using h
      | some a => simpa [hb, ha] using mem_addSet_of_mem _ _ h
  · intro acc
    simp only [hgf, han]
    exact mem_addSet_self _ _
  · exact hfe

/-- C2 witness: the spec's concrete scenario — selection `["title"]`,
    expansion `{"author": {}}`, foreign key `author_id`. -/
theorem c2_witness :
    "author_id".toList ∈
      build_only_fields_list postModel ["title".toList] ["author".toList] :=
  c2_forward_join_fk_in_parent_projection postModel _ _ "author".toList
    { name := "author".toList, attname := some "author_id".toList,
      hasRelatedModel := true, manyToOne := true, oneToOne := false,
      relatedModel := some 0 }
    "author_id".toList (by decide) (by decide) (by decide) (by decide)

/-! ## C4: unknown expansion fields -/

/-- C4 counterexample.  The claim says an unknown field appears in neither
    the forward-join nor the collection-fetch list; but `categorize_relations`
    places `bogus` — a name the post model does not recognize — on the
    `prefetch_related` side. -/
theorem c4_counterexample_unknown_in_prefetch_list :
    "bogus".toList ∈ (categorize_relations postModel ["bogus".toList]).2 := by
  decide

/-- C4 (amended).  An expansion field the model does not recognize is never
    placed on the forward-join (`select_related`) side; `categorize_relations`
    instead routes it to the collection-fetch (`prefetch_related`) side, and
    classification never fails. -/
theorem c4_unknown_fields_never_forward_joined :
    ∀ (m : Model) (fs : List Str) (f : Str),
      f ∈ fs → getField m f = none →
      f ∉ (categorize_relations m fs).1 ∧ f ∈ (categorize_relations m fs).2 := by
  intro m fs f hf hgf
  have hfw : is_forward_relation m f = false := by
    simp [is_forward_relation, hgf]
  unfold categorize_relations
  rw [List.partition_eq_filter_filter]
  constructor
  · intro hmem
    have h2 := (List.mem_filter.mp hmem).2
    rw [hfw] at h2
    cases h2
  · exact List.mem_filter.mpr ⟨hf, by simp [Function.comp, hfw]⟩

/-- C4 witness: the unknown field `bogus` against the post model. -/
theorem c4_witness :
    "bogus".toList ∉ (categorize_relations postModel ["bogus".toList]).1 ∧
    "bogus".toList ∈ (categorize_relations postModel ["bogus".toList]).2 :=
  c4_unknown_fields_never_forward_joined postModel _ _ (by decide) (by decide)

/-! ## C9: numeric `$top` / `$skip` semantics -/

/-- C9 counterexample.  `"0"` parses as a non-negative base-10 integer, yet
    `_apply_top` does not apply the limit (the claim would require the empty
    window `take 0`). -/
theorem c9_counterexample_top_zero_not_applied :
    pyInt? "0".toList = some 0 ∧
    applyTop ([1, 2, 3] : List Nat) [("$top".toList, "0".toList)] ≠
      List.take 0 [1, 2, 3] := by decide

/-- C9 (amended).  A `$top`/`$skip` value that parses as a *positive* base-10
    integer is applied as a limit/offset; a missing, unparsable, zero, or
    negative value leaves the queryset unchanged (the option is ignored), and
    application never fails.  (For `$skip` ignoring `0` coincides with
    applying offset 0; for `$top` a `0` is genuinely dropped, as the
    counterexample shows.) -/
theorem c9_top_skip_window_semantics :
    ∀ {α : Type} (qs : List α) (params : List (Str × Str)),
      (lookupA "$top".toList params = none → applyTop qs params = qs) ∧
      (∀ v, lookupA "$top".toList params = some v → pyInt? v = none →
        applyTop qs params = qs) ∧
      (∀ v n, lookupA "$top".toList params = some v → pyInt? v = some n →
        n ≤ 0 → applyTop qs params = qs) ∧
      (∀ v n, lookupA "$top".toList params = some v → pyInt? v = some n →
        0 < n → applyTop qs params = qs.take n.toNat) ∧
      (lookupA "$skip".toList params = none → applySkip qs params = qs) ∧
      (∀ v, lookupA "$skip".toList params = some v → pyInt? v = none →
        applySkip qs params = qs) ∧
      (∀ v n, lookupA "$skip".toList params = some v → pyInt? v = some n →
        n ≤ 0 → applySkip qs params = qs) ∧
      (∀ v n, lookupA "$skip".toList params = some v → pyInt? v = some n →
        0 < n → applySkip qs params = qs.drop n.toNat) := by
  intro α qs params
  refine ⟨?_, ?_, ?_, ?_, ?_, ?_, ?_, ?_⟩
  · intro h; simp only [applyTop, h]
  · intro v h1 h2; simp only [applyTop, h1, h2]
  · intro v n h1 h2 h3
    have hn : ¬(0 < n) := by omega
    simp only [applyTop, h1, h2, if_neg hn]
  · intro v n h1 h2 h3; simp only [applyTop, h1, h2, if_pos h3]
  · intro h; simp only [applySkip, h]
  · intro v h1 h2; simp only [applySkip, h1, h2]
  · intro v n h1 h2 h3
    have hn : ¬(0 < n) := by omega
    simp only [applySkip, h1, h2, if_neg hn]
  · intro v n h1 h2 h3; simp only [applySkip, h1, h2, if_pos h3]

/-- C9 witness: `$top=2` and `$skip=1` on a three-element result set. -/
theorem c9_witness :
    applyTop ([1, 2, 3] : List Nat) [("$top".toList, "2".toList)] =
      List.take 2 [1, 2, 3] ∧
    applySkip ([1, 2, 3] : List Nat) [("$skip".toList, "1".toList)] =
      List.drop 1 [1, 2, 3] :=
  ⟨(c9_top_skip_window_semantics [1, 2, 3] _).2.2.2.1 "2".toList 2
      (by decide) (by decide) (by decide),
   (c9_top_skip_window_semantics [1, 2, 3] _).2.2.2.2.2.2.2 "1".toList 1
      (by decide) (by decide) (by decide)⟩

/-! ## C6: the raw-query-string entry point -/

/-- C6.  The claim (and the spec, docstrings and tests of `core.py`) promise
    that planning over a client-supplied query string never raises.  In the
    code, `apply_odata_to_queryset` hands the raw string to
    `parse_odata_query`, where `param in query_params` succeeds as a
    substring test and `query_params[param]` then raises `TypeError` — for
    well-formed and malformed strings alike.  A string containing no option
    name is the only kind that survives (with an empty parameter dict). -/
theorem c6_raw_query_string_raises_type_error :
    parse_odata_query (.str "$top=10".toList) = .error .typeError ∧
    parse_odata_query (.str "$expand=author(".toList) = .error .typeError ∧
    parse_odata_query (.str "no odata options".toList) = .ok [] := by decide

/-! ## C3: nested options on collection (prefetch) relations -/

/-- C3 counterexample.  Expanding `posts` with `$select`, `$filter`,
    `$orderby`, `$top` and `$skip`: the batched prefetch query receives only
    the field projection; no predicate, ordering, limit or offset is placed
    on it. -/
theorem c3_counterexample_nested_options_ignored_on_prefetch :
    (apply_prefetch_field_selection demoEnv authorModel ["posts".toList]
        [("posts".toList,
          [("$select".toList, "title".toList),
           ("$filter".toList, "published eq true".toList),
           ("$orderby".toList, "-id".toList),
           ("$top".toList, "5".toList),
           ("$skip".toList, "2".toList)])]).1 =
      [{ prefetchTo := "posts".toList,
         queryset := { model := 1,
                       onlyFields := ["id".toList, "title".toList] } }] ∧
    ((apply_prefetch_field_selection demoEnv authorModel ["posts".toList]
        [("posts".toList,
          [("$select".toList, "title".toList),
           ("$filter".toList, "published eq true".toList),
           ("$orderby".toList, "-id".toList),
           ("$top".toList, "5".toList),
           ("$skip".toList, "2".toList)])]).1.any fun p =>
        p.queryset.filterExpr.isSome || p.queryset.orderBy.isSome ||
        p.queryset.limit.isSome || p.queryset.offset.isSome) = false := by
  decide

/-- C3 (amended).  Of a collection relation's options only `$select` reaches
    the batched prefetch sub-query: every `Prefetch` object built by
    `apply_prefetch_field_selection` carries no filter, ordering, limit or
    offset, and its projection is exactly the related model's primary key
    followed by the recognized nested `$select` fields.  A relation's
    `$filter` / `$orderby` / `$top` / `$skip` are not copied into the
    collection fetch plan and are silently dropped: the only consumer that
    would apply them (`ODataModelSerializer.to_representation`) is gated on
    an `_expanded_fields_data` attribute that nothing ever sets. -/
theorem c3_prefetch_scoped_query_is_projection_only :
    ∀ (env : ModelEnv) (m : Model) (pfs : List Str)
      (expandFields : List (Str × List (Str × Str))) (spec : PrefetchSpec),
      spec ∈ (apply_prefetch_field_selection env m pfs expandFields).1 →
      spec.queryset.filterExpr = none ∧ spec.queryset.orderBy = none ∧
      spec.queryset.limit = none ∧ spec.queryset.offset = none ∧
      ∃ opts s rm,
        lookupA spec.prefetchTo expandFields = some opts ∧
        lookupA "$select".toList opts = some s ∧ s ≠ [] ∧
        env.get? spec.queryset.model = some rm ∧
        spec.queryset.onlyFields =
          rm.pkName ::
            (parse_select_fields s).1.filter (fun nf => (getField rm nf).isSome) := by
  intro env m pfs expandFields spec hmem
  have hmem' : spec ∈ pfs.filterMap (prefetchObjectFor env m expandFields) := by
    simp only [apply_prefetch_field_selection] at hmem
    split at hmem
    · simp at hmem
    · exact hmem
  obtain ⟨pf, _, hsome⟩ := List.mem_filterMap.mp hmem'
  simp only [prefetchObjectFor] at hsome
  repeat' split at hsome
  all_goals first
    | exact Option.noConfusion hsome
    | (cases hsome
       refine ⟨rfl, rfl, rfl, rfl, ?_⟩
       exact ⟨_, _, _, by assumption, by assumption, by assumption,
              by assumption, rfl⟩)

/-- C3 witness: the `posts($select=title)` prefetch of the counterexample
    input, shown to carry projection scoping only. -/
theorem c3_witness :
    ({ prefetchTo := "posts".toList,
       queryset := { model := 1, onlyFields := ["id".toList, "title".toList] } } :
        PrefetchSpec).queryset.filterExpr = none :=
  (c3_prefetch_scoped_query_is_projection_only demoEnv authorModel
      ["posts".toList]
      [("posts".toList, [("$select".toList, "title".toList)])]
      { prefetchTo := "posts".toList,
        queryset := { model := 1, onlyFields := ["id".toList, "title".toList] } }
      (by decide)).1

/-! ## C5: the recursion-depth bound of serializer expansion -/

theorem pred_foldl_of_pred {β γ : Type} (P : γ → Prop) (step : γ → β → γ)
    (hpres : ∀ acc b, P acc → P (step acc b)) :
    ∀ (l : List β) (acc : γ), P acc → P (l.foldl step acc) := by
  intro l
  induction l with
  | nil => intro acc h; simpa using h
  | cons b bs ih => intro acc h; exact ih _ (hpres _ _ h)

theorem pred_foldl_of_step {β γ : Type} (P : γ → Prop) (step : γ → β → γ)
    (hpres : ∀ acc b, P acc → P (step acc b))
    (b : β) (hb : ∀ acc, P (step acc b)) :
    ∀ (l : List β) (acc : γ), b ∈ l → P (l.foldl step acc) := by
  intro l
  induction l with
  | nil => intro acc h; cases h
  | cons hd tl ih =>
    intro acc hmem
    rcases List.mem_cons.mp hmem with rfl | h'
    · exact pred_foldl_of_pred P step hpres tl _ (hb acc)
    · exact ih _ h'

theorem fieldsDepth_insertAssoc :
    ∀ (l : List (Str × SerNode)) (k : Str) (cs : List (Str × SerNode)),
      fieldsDepth (insertAssoc l k (.mk cs)) ≤ max (fieldsDepth l) (1 + fieldsDepth cs) := by
  intro l
  induction l with
  | nil => intro k cs; simp [insertAssoc, fieldsDepth]
  | cons hd tl ih =>
    intro k cs
    obtain ⟨k', v'⟩ := hd
    obtain ⟨cs'⟩ := v'
    by_cases hk : k' = k
    · simp only [insertAssoc, if_pos hk, fieldsDepth]
      omega
    · simp only [insertAssoc, if_neg hk, fieldsDepth]
      have := ih k cs
      omega

theorem fieldsDepth_expand_foldl (expandable : List (Str × Nat))
    (g : Nat → List (Str × SerNode)) (B : Nat) (hg : ∀ i, 1 + fieldsDepth (g i) ≤ B) :
    ∀ (fs : List (Str × Option Str)) (acc : List (Str × SerNode)),
      fieldsDepth acc ≤ B →
      fieldsDepth (fs.foldl
        (fun fields fo =>
          match lookupA fo.1 expandable with
          | none => fields
          | some childCls => insertAssoc fields fo.1 (SerNode.mk (g childCls)))
        acc) ≤ B := by
  intro fs
  induction fs with
  | nil => intro acc h; simpa using h
  | cons fo fs ih =>
    intro acc h
    simp only [List.foldl_cons]
    cases hlk : lookupA fo.1 expandable with
    | none => simp only [hlk]; exact ih _ h
    | some c =>
      simp only [hlk]
      apply ih
      have h1 := fieldsDepth_insertAssoc acc fo.1 (g c)
      have h2 := hg c
      omega

theorem applyFieldExpansion_depth_le :
    ∀ (k : Nat) (env : List SerClass) (cls : Nat) (p : Option Str) (d : Nat),
      MAX_EXPANSION_DEPTH - d ≤ k →
      fieldsDepth (applyFieldExpansion env cls p d) ≤ MAX_EXPANSION_DEPTH - d := by
  intro k
  induction k with
  | zero =>
    intro env cls p d hk
    unfold applyFieldExpansion
    cases p with
    | none => simp [fieldsDepth]
    | some p =>
      have hd : MAX_EXPANSION_DEPTH ≤ d := by omega
      simp [if_pos hd, fieldsDepth]
  | succ k ih =>
    intro env cls p d hk
    unfold applyFieldExpansion
    cases p with
    | none => simp [fieldsDepth]
    | some p =>
      by_cases hd : MAX_EXPANSION_DEPTH ≤ d
      · simp [if_pos hd, fieldsDepth]
      · simp only [if_neg hd]
        cases henv : env.get? cls with
        | none => simp [fieldsDepth]
        | some c =>
          by_cases hc : c.expandable = []
          · simp [hc, fieldsDepth]
          · simp only [if_neg hc]
            apply fieldsDepth_expand_foldl c.expandable
              (fun i => applyFieldExpansion env i (some p) (d + 1))
            · intro i
              have hrec := ih env i (some p) (d + 1) (by omega)
              omega
            · simp [fieldsDepth]

theorem hasKey_insertAssoc_self {α : Type} :
    ∀ (l : List (Str × α)) (k : Str) (v : α), hasKey k (insertAssoc l k v) = true := by
  intro l
  induction l with
  | nil => intro k v; simp [insertAssoc, hasKey, lookupA]
  | cons hd tl ih =>
    intro k v
    obtain ⟨k', v'⟩ := hd
    by_cases hk : k' = k
    · simp [insertAssoc, hk, hasKey, lookupA]
    · simp only [insertAssoc, if_neg hk, hasKey, lookupA]
      simpa [hasKey, if_neg hk] using ih k v

theorem hasKey_insertAssoc_of {α : Type} :
    ∀ (l : List (Str × α)) (k k' : Str) (v : α),
      hasKey k l = true → hasKey k (insertAssoc l k' v) = true := by
  intro l
  induction l with
  | nil => intro k k' v h; simp [hasKey, lookupA] at h
  | cons hd tl ih =>
    intro k k' v h
    obtain ⟨kh, vh⟩ := hd
    by_cases hk : kh = k'
    · subst hk
      simp only [insertAssoc, if_pos rfl]
      by_cases hkk : kh = k
      · simp [hasKey, lookupA, hkk]
      · simp only [hasKey, lookupA, if_neg hkk] at h ⊢
        exact h
    · simp only [insertAssoc, if_neg hk]
      by_cases hkk : kh = k
      · simp [hasKey, lookupA, hkk]
      · simp only [hasKey, lookupA, if_neg hkk] at h ⊢
        exact ih _ _ _ h

/-- C5.  Recursive `$expand` resolution in `NativeFieldExpansionMixin` is
    silently truncated at `MAX_EXPANSION_DEPTH`: the nesting depth of
    expanded serializer fields built from depth `d` never exceeds
    `MAX_EXPANSION_DEPTH - d` (so at most `MAX_EXPANSION_DEPTH` from the
    root), no error is raised (the construction is total), and below the
    bound every expandable field of the `$expand` value is still produced. -/
theorem c5_expansion_depth_bounded :
    (∀ (env : List SerClass) (cls : Nat) (p : Option Str) (d : Nat),
      fieldsDepth (applyFieldExpansion env cls p d) ≤ MAX_EXPANSION_DEPTH - d) ∧
    (∀ (env : List SerClass) (cls : Nat) (c : SerClass) (p : Str)
       (fo : Str × Option Str) (childCls d : Nat),
      d < MAX_EXPANSION_DEPTH → env.get? cls = some c →
      fo ∈ parse_expand_fields p → lookupA fo.1 c.expandable = some childCls →
      hasKey fo.1 (applyFieldExpansion env cls (some p) d) = true) := by
  constructor
  · intro env cls p d
    exact applyFieldExpansion_depth_le (MAX_EXPANSION_DEPTH - d) env cls p d le_rfl
  · intro env cls c p fo childCls d hd henv hmem hlk
    have hc : c.expandable ≠ [] := by
      intro h
      rw [h] at hlk
      simp [lookupA] at hlk
    unfold applyFieldExpansion
    simp only [if_neg (by omega : ¬ MAX_EXPANSION_DEPTH ≤ d), henv, if_neg hc]
    apply pred_foldl_of_step (fun m => hasKey fo.1 m = true) _ ?_ fo ?_ _ _ hmem
    · intro acc b hP
      cases hlkb : lookupA b.1 c.expandable with
      | none => simp only [hlkb]; exact hP
      | some cc => simp only [hlkb]; exact hasKey_insertAssoc_of _ _ _ _ hP
    · intro acc
      simp only [hlk]
      exact hasKey_insertAssoc_self _ _ _

/-- C5 witness: a self-referential `author` expansion, truncated at depth 3,
    with the `author` field produced at the root. -/
theorem c5_witness :
    fieldsDepth
        (applyFieldExpansion [⟨[("author".toList, 0)]⟩] 0 (some "author".toList) 0) ≤
      MAX_EXPANSION_DEPTH - 0 ∧
    hasKey "author".toList
        (applyFieldExpansion [⟨[("author".toList, 0)]⟩] 0 (some "author".toList) 0) =
      true :=
  ⟨c5_expansion_depth_bounded.1 _ 0 _ 0,
   c5_expansion_depth_bounded.2 [⟨[("author".toList, 0)]⟩] 0 ⟨[("author".toList, 0)]⟩
     "author".toList ("author".toList, none) 0 0 (by decide) (by decide)
     (by decide) (by decide)⟩

/-! ## Scanning lemmas: `netDepth`, `noTop`, `pyStrip` -/

theorem netDepth_nil : netDepth [] = 0 := rfl

theorem netDepth_cons (c : Char) (l : Str) :
    netDepth (c :: l) = parenDelta c + netDepth l := by
  simp [netDepth]

theorem netDepth_append (a b : Str) : netDepth (a ++ b) = netDepth a + netDepth b := by
  simp [netDepth]

theorem isPyWs_char (c : Char) (h : isPyWs c = true) :
    parenDelta c = 0 ∧ c ≠ ';' ∧ c ≠ ',' ∧ c ≠ '=' ∧ c ≠ '$' ∧ c ≠ '(' ∧ c ≠ ')' := by
  simp only [isPyWs, Bool.or_eq_true, decide_eq_true_eq] at h
  rcases h with ((((h | h) | h) | h) | h) | h <;> subst h <;> decide

theorem netDepth_of_ws : ∀ l : Str, (∀ c ∈ l, isPyWs c = true) → netDepth l = 0 := by
  intro l
  induction l with
  | nil => intro _; rfl
  | cons c l ih =>
    intro h
    rw [netDepth_cons, (isPyWs_char c (h c (List.mem_cons_self c l))).1,
      ih (fun x hx => h x (List.mem_cons_of_mem _ hx))]
    rfl

theorem noTop_of_ws (delim : Char) (hd : delim = ';' ∨ delim = ',') :
    ∀ (l : Str) (d : Int), (∀ c ∈ l, isPyWs c = true) → noTop delim l d = true := by
  intro l
  induction l with
  | nil => intro d _; rfl
  | cons c l ih =>
    intro d h
    obtain ⟨_, hsemi, hcomma, _, _, hop, hcl⟩ := isPyWs_char c (h c (List.mem_cons_self c l))
    have hdel : c ≠ delim := by rcases hd with rfl | rfl <;> assumption
    rw [noTop, if_neg hop, if_neg hcl, if_neg hdel]
    exact ih d (fun x hx => h x (List.mem_cons_of_mem _ hx))

theorem noTop_append (delim : Char) :
    ∀ (a b : Str) (d : Int),
      noTop delim (a ++ b) d = (noTop delim a d && noTop delim b (d + netDepth a)) := by
  intro a
  induction a with
  | nil => intro b d; simp [noTop, netDepth_nil]
  | cons c a ih =>
    intro b d
    rw [List.cons_append]
    by_cases h1 : c = '('
    · subst h1
      rw [noTop, noTop, if_pos rfl, if_pos rfl, ih,
        show d + netDepth ('(' :: a) = (d + 1) + netDepth a by
          rw [netDepth_cons]; simp [parenDelta]; ring]
    · by_cases h2 : c = ')'
      · subst h2
        rw [noTop, noTop, if_neg (by decide), if_pos rfl, if_neg (by decide),
          if_pos rfl, ih,
          show d + netDepth (')' :: a) = (d - 1) + netDepth a by
            rw [netDepth_cons]; simp [parenDelta]; ring]
      · have hδ : parenDelta c = 0 := by simp [parenDelta, h1, h2]
        have harg : d + netDepth (c :: a) = d + netDepth a := by
          rw [netDepth_cons, hδ]; ring
        by_cases h3 : c = delim
        · subst h3
          rw [noTop, noTop, if_neg h1, if_neg h1, if_neg h2, if_neg h2,
            if_pos rfl, if_pos rfl, ih, harg, Bool.and_assoc]
        · rw [noTop, noTop, if_neg h1, if_neg h1, if_neg h2, if_neg h2,
            if_neg h3, if_neg h3, ih, harg]

theorem dropTrailWs_nil : dropTrailWs [] = [] := rfl

theorem dropTrailWs_cons (c : Char) (l : Str) :
    dropTrailWs (c :: l) =
      if (dropTrailWs l).isEmpty && isPyWs c then [] else c :: dropTrailWs l := rfl

theorem dropTrailWs_decomp :
    ∀ l : Str, ∃ w, l = dropTrailWs l ++ w ∧ ∀ c ∈ w, isPyWs c = true := by
  intro l
  induction l with
  | nil => exact ⟨[], rfl, by simp⟩
  | cons c l ih =>
    obtain ⟨w, hw, hws⟩ := ih
    rw [dropTrailWs_cons]
    by_cases hcond : (dropTrailWs l).isEmpty && isPyWs c
    · rw [if_pos hcond]
      refine ⟨c :: l, rfl, ?_⟩
      intro x hx
      rcases List.mem_cons.mp hx with rfl | hx'
      · exact (Bool.and_eq_true ..).mp hcond |>.2
      · have hnil : dropTrailWs l = [] :=
          List.isEmpty_iff.mp ((Bool.and_eq_true ..).mp hcond).1
        rw [hnil] at hw
        have hlw : l = w := by simpa using hw
        exact hws x (hlw ▸ hx')
    · rw [if_neg hcond]
      exact ⟨w, by rw [List.cons_append, ← hw], hws⟩

theorem pyStrip_decomp :
    ∀ l : Str, ∃ w1 w2, l = w1 ++ pyStrip l ++ w2 ∧
      (∀ c ∈ w1, isPyWs c = true) ∧ ∀ c ∈ w2, isPyWs c = true := by
  intro l
  obtain ⟨w2, hw2, hws2⟩ := dropTrailWs_decomp (l.dropWhile isPyWs)
  refine ⟨l.takeWhile isPyWs, w2, ?_, ?_, hws2⟩
  · rw [pyStrip, List.append_assoc, ← hw2, List.takeWhile_append_dropWhile]
  · intro c hc
    exact List.mem_takeWhile_imp hc

theorem netDepth_pyStrip (l : Str) : netDepth (pyStrip l) = netDepth l := by
  obtain ⟨w1, w2, hdec, h1, h2⟩ := pyStrip_decomp l
  conv_rhs => rw [hdec]
  rw [netDepth_append, netDepth_append, netDepth_of_ws w1 h1, netDepth_of_ws w2 h2]
  ring

theorem mem_pyStrip {x : Char} {l : Str} (h : x ∈ pyStrip l) : x ∈ l := by
  obtain ⟨w1, w2, hdec, _, _⟩ := pyStrip_decomp l
  rw [hdec]
  exact List.mem_append_left _ (List.mem_append_right _ h)

theorem noTop_pyStrip (delim : Char) (l : Str) (d : Int)
    (h : noTop delim l d = true) : noTop delim (pyStrip l) d = true := by
  obtain ⟨w1, w2, hdec, h1, h2⟩ := pyStrip_decomp l
  rw [hdec, noTop_append, noTop_append, Bool.and_eq_true, Bool.and_eq_true] at h
  have hmid := h.1.2
  rwa [netDepth_of_ws w1 h1, add_zero] at hmid

theorem head?_dropWhile_not (p : Char → Bool) :
    ∀ (l : Str) (c : Char), (l.dropWhile p).head? = some c → p c = false := by
  intro l
  induction l with
  | nil => intro c h; cases h
  | cons a l ih =>
    intro c h
    by_cases ha : p a
    · rw [List.dropWhile_cons_of_pos ha] at h
      exact ih c h
    · rw [List.dropWhile_cons_of_neg ha] at h
      cases h
      exact Bool.of_not_eq_true ha

theorem dropTrailWs_getLast :
    ∀ (l : Str) (c : Char), (dropTrailWs l).getLast? = some c → isPyWs c = false := by
  intro l
  induction l with
  | nil => intro c h; cases h
  | cons a l ih =>
    intro c h
    rw [dropTrailWs_cons] at h
    by_cases hcond : (dropTrailWs l).isEmpty && isPyWs a
    · rw [if_pos hcond] at h; cases h
    · rw [if_neg hcond] at h
      cases hdtl : dropTrailWs l with
      | nil =>
        rw [hdtl] at h hcond
        simp only [List.getLast?_singleton, Option.some.injEq] at h
        subst h
        simpa using hcond
      | cons b bs =>
        rw [hdtl] at h
        rw [List.getLast?_cons_cons] at h
        exact ih c (hdtl ▸ h)

theorem dropTrailWs_head? :
    ∀ (l : Str) (c : Char), (dropTrailWs l).head? = some c → l.head? = some c := by
  intro l
  induction l with
  | nil => intro c h; cases h
  | cons a l _
  => intro c h
     rw [dropTrailWs_cons] at h
     by_cases hcond : (dropTrailWs l).isEmpty && isPyWs a
     · rw [if_pos hcond] at h; cases h
     · rw [if_neg hcond] at h
       cases h
       rfl

theorem pyStrip_head? (l : Str) (c : Char) (h : (pyStrip l).head? = some c) :
    isPyWs c = false :=
  head?_dropWhile_not isPyWs l c (dropTrailWs_head? _ c h)

theorem pyStrip_getLast? (l : Str) (c : Char) (h : (pyStrip l).getLast? = some c) :
    isPyWs c = false :=
  dropTrailWs_getLast _ c h

theorem dropTrailWs_eq_self :
    ∀ l : Str, (∀ c, l.getLast? = some c → isPyWs c = false) → dropTrailWs l = l := by
  intro l
  induction l with
  | nil => intro _; rfl
  | cons a l ih =>
    intro h
    cases l with
    | nil =>
      rw [dropTrailWs_cons]
      have := h a (by simp)
      simp [this, dropTrailWs_nil]
    | cons b bs =>
      have hl : dropTrailWs (b :: bs) = b :: bs := by
        apply ih
        intro c hc
        exact h c (by rw [List.getLast?_cons_cons]; exact hc)
      rw [dropTrailWs_cons, hl]
      simp

theorem pyStrip_eq_self (l : Str)
    (h1 : ∀ c, l.head? = some c → isPyWs c = false)
    (h2 : ∀ c, l.getLast? = some c → isPyWs c = false) : pyStrip l = l := by
  have hdw : l.dropWhile isPyWs = l := by
    cases l with
    | nil => rfl
    | cons a l =>
      rw [List.dropWhile_cons_of_neg]
      rw [h1 a rfl]
      simp
  rw [pyStrip, hdw]
  exact dropTrailWs_eq_self l h2

theorem pyStrip_idem (l : Str) : pyStrip (pyStrip l) = pyStrip l :=
  pyStrip_eq_self _ (pyStrip_head? l) (pyStrip_getLast? l)

/-! ## Tokenizer piece invariants -/

theorem noTop_nil (delim : Char) (d : Int) : noTop delim [] d = true := rfl

theorem noTop_single_not (delim c : Char) (d : Int)
    (h1 : c ≠ '(') (h2 : c ≠ ')') (h3 : c ≠ delim) : noTop delim [c] d = true := by
  rw [noTop, if_neg h1, if_neg h2, if_neg h3]
  rfl

/-- Every piece the tokenizer emits is parenthesis-neutral and contains no
    top-level delimiter: the running depth starts and ends at 0 within a
    piece, and the delimiter only ever occurs at non-zero depth inside it. -/
theorem splitTopAux_pieces (delim : Char) (hdelim : delim ≠ '(' ∧ delim ≠ ')') :
    ∀ (s cur : Str) (d : Int), netDepth cur = d → noTop delim cur 0 = true →
      ∀ p ∈ splitTopAux delim s cur d, netDepth p = 0 ∧ noTop delim p 0 = true := by
  intro s
  induction s with
  | nil => intro cur d _ _ p hp; cases hp
  | cons c rest ih =>
    intro cur d hnet hnt p hp
    by_cases h1 : c = '('
    · subst h1
      rw [splitTopAux, if_pos rfl] at hp
      refine ih _ _ ?_ ?_ p hp
      · rw [netDepth_append, hnet, netDepth_cons, netDepth_nil]
        simp [parenDelta]
      · rw [noTop_append, hnt, Bool.true_and, zero_add]
        rw [noTop, if_pos rfl]
        rfl
    · by_cases h2 : c = ')'
      · subst h2
        rw [splitTopAux, if_neg (by decide), if_pos rfl] at hp
        refine ih _ _ ?_ ?_ p hp
        · rw [netDepth_append, hnet, netDepth_cons, netDepth_nil,
            show parenDelta ')' = -1 from by decide]
          ring
        · rw [noTop_append, hnt, Bool.true_and, zero_add]
          rw [noTop, if_neg (by decide), if_pos rfl]
          rfl
      · by_cases h3 : c = delim ∧ d = 0
        · rw [splitTopAux, if_neg (by rw [h3.1]; exact hdelim.1),
            if_neg (by rw [h3.1]; exact hdelim.2), if_pos h3] at hp
          rcases List.mem_cons.mp hp with rfl | hp'
          · exact ⟨by rw [hnet, h3.2], hnt⟩
          · exact ih [] d (by rw [netDepth_nil, h3.2]) rfl p hp'
        · rw [splitTopAux, if_neg h1, if_neg h2, if_neg h3] at hp
          have hδ : parenDelta c = 0 := by simp [parenDelta, h1, h2]
          refine ih _ _ ?_ ?_ p hp
          · rw [netDepth_append, hnet, netDepth_cons, netDepth_nil, hδ]
            ring
          · rw [noTop_append, hnt, Bool.true_and, zero_add]
            by_cases h4 : c = delim
            · rw [noTop, if_neg h1, if_neg h2, if_pos h4]
              have hd0 : d ≠ 0 := fun hd0 => h3 ⟨h4, hd0⟩
              rw [hnet]
              simp [hd0, noTop_nil]
            · exact noTop_single_not delim c _ h1 h2 h4

theorem splitTop_pieces (delim : Char) (hdelim : delim ≠ '(' ∧ delim ≠ ')') (s : Str) :
    ∀ p ∈ splitTop delim s, netDepth p = 0 ∧ noTop delim p 0 = true :=
  splitTopAux_pieces delim hdelim (s ++ [delim]) [] 0 rfl rfl

/-! ## Well-formedness of parsed option maps -/

theorem first_eq_split (sp : Str) (h : '=' ∈ sp) :
    sp = sp.takeWhile (· ≠ '=') ++ '=' :: (sp.dropWhile (· ≠ '=')).tail ∧
    '=' ∉ sp.takeWhile (· ≠ '=') := by
  have hdw : ∃ rest, sp.dropWhile (· ≠ '=') = '=' :: rest := by
    cases hd : sp.dropWhile (· ≠ '=') with
    | nil =>
      exfalso
      have hsp := (List.takeWhile_append_dropWhile (p := (· ≠ '=')) (l := sp)).symm
      rw [hd, List.append_nil] at hsp
      rw [hsp] at h
      have := List.mem_takeWhile_imp h
      simp at this
    | cons c rest =>
      have hc : c = '=' := by
        have h0 := head?_dropWhile_not (fun x => decide (x ≠ '=')) sp c (by rw [hd]; rfl)
        simpa using h0
      subst hc
      exact ⟨rest, rfl⟩
  obtain ⟨rest, hrest⟩ := hdw
  constructor
  · conv_lhs => rw [← List.takeWhile_append_dropWhile (p := (· ≠ '=')) (l := sp)]
    rw [hrest]
    simp
  · intro hmem
    have := List.mem_takeWhile_imp hmem
    simp at this

theorem parseSingleQueryOption_good (piece : Str)
    (hnet : netDepth piece = 0) (hnt : noTop ';' piece 0 = true)
    {k v : Str} (h : parseSingleQueryOption (pyStrip piece) = (k, v)) (hk : k ≠ []) :
    GoodEntry k v := by
  by_cases hin : '=' ∈ pyStrip piece
  case neg =>
    rw [parseSingleQueryOption, if_pos hin] at h
    cases h
    exact absurd rfl hk
  case pos =>
    rw [parseSingleQueryOption, if_neg (by simpa using hin)] at h
    by_cases hdol : (pyStrip ((pyStrip piece).takeWhile (· ≠ '='))).head? = some '$'
    case neg =>
      rw [if_neg hdol] at h
      cases h
      exact absurd rfl hk
    case pos =>
      rw [if_pos hdol] at h
      obtain ⟨hk1, hv1⟩ := Prod.mk.injEq .. ▸ h
      obtain ⟨hsplit, hnomem⟩ := first_eq_split (pyStrip piece) hin
      have hnetsp : netDepth (pyStrip piece) = 0 := by
        rw [netDepth_pyStrip]; exact hnet
      have hntsp : noTop ';' (pyStrip piece) 0 = true := noTop_pyStrip ';' piece 0 hnt
      have hpe : parenDelta '=' = 0 := by decide
      have hnetraw : netDepth ((pyStrip piece).takeWhile (· ≠ '=')) +
          netDepth (((pyStrip piece).dropWhile (· ≠ '=')).tail) = 0 := by
        have h0 := hnetsp
        rw [hsplit, netDepth_append, netDepth_cons, hpe] at h0
        linarith
      have hntraw : noTop ';' ((pyStrip piece).takeWhile (· ≠ '=')) 0 = true ∧
          noTop ';' (((pyStrip piece).dropWhile (· ≠ '=')).tail)
            (netDepth ((pyStrip piece).takeWhile (· ≠ '='))) = true := by
        have h1 := hntsp
        rw [hsplit, noTop_append, Bool.and_eq_true] at h1
        refine ⟨h1.1, ?_⟩
        have h2 := h1.2
        rw [noTop, if_neg (by decide), if_neg (by decide), if_neg (by decide),
          zero_add] at h2
        exact h2
      subst hk1 hv1
      refine ⟨hk, hdol, ?_, pyStrip_idem _, pyStrip_idem _, ?_, ?_⟩
      · intro hmem
        exact hnomem (mem_pyStrip hmem)
      · rw [netDepth_append, netDepth_cons, netDepth_pyStrip, netDepth_pyStrip, hpe]
        linarith
      · rw [noTop_append, Bool.and_eq_true]
        refine ⟨noTop_pyStrip ';' _ 0 hntraw.1, ?_⟩
        rw [noTop, if_neg (by decide), if_neg (by decide), if_neg (by decide),
          zero_add, netDepth_pyStrip]
        exact noTop_pyStrip ';' _ _ hntraw.2

theorem mem_keys_insertAssoc {α : Type} :
    ∀ (l : List (Str × α)) (k : Str) (v : α) (x : Str),
      x ∈ (insertAssoc l k v).map Prod.fst → x = k ∨ x ∈ l.map Prod.fst := by
  intro l
  induction l with
  | nil => intro k v x hx; simp [insertAssoc] at hx; exact Or.inl hx
  | cons hd tl ih =>
    intro k v x hx
    obtain ⟨k', v'⟩ := hd
    by_cases hk : k' = k
    · rw [insertAssoc, if_pos hk, List.map_cons] at hx
      rcases List.mem_cons.mp hx with h | h
      · exact Or.inl h
      · rw [List.map_cons]; exact Or.inr (List.mem_cons_of_mem _ h)
    · rw [insertAssoc, if_neg hk, List.map_cons] at hx
      rcases List.mem_cons.mp hx with h | h
      · subst h; rw [List.map_cons]; exact Or.inr (List.mem_cons_self _ _)
      · rcases ih k v x h with h' | h'
        · exact Or.inl h'
        · rw [List.map_cons]; exact Or.inr (List.mem_cons_of_mem _ h')

theorem nodupKeys_insertAssoc {α : Type} :
    ∀ (l : List (Str × α)) (k : Str) (v : α),
      (l.map Prod.fst).Nodup → ((insertAssoc l k v).map Prod.fst).Nodup := by
  intro l
  induction l with
  | nil => intro k v _; simp [insertAssoc]
  | cons hd tl ih =>
    intro k v hnd
    obtain ⟨k', v'⟩ := hd
    rw [List.map_cons, List.nodup_cons] at hnd
    by_cases hk : k' = k
    · rw [insertAssoc, if_pos hk, List.map_cons, List.nodup_cons]
      exact ⟨hk ▸ hnd.1, hnd.2⟩
    · rw [insertAssoc, if_neg hk, List.map_cons, List.nodup_cons]
      refine ⟨?_, ih k v hnd.2⟩
      intro hmem
      rcases mem_keys_insertAssoc tl k v k' hmem with h | h
      · exact hk h
      · exact hnd.1 h

theorem entries_insertAssoc {α : Type} (P : Str × α → Prop) :
    ∀ (l : List (Str × α)) (k : Str) (v : α),
      (∀ p ∈ l, P p) → P (k, v) → ∀ p ∈ insertAssoc l k v, P p := by
  intro l
  induction l with
  | nil => intro k v _ hkv p hp; simp [insertAssoc] at hp; exact hp ▸ hkv
  | cons hd tl ih =>
    intro k v hl hkv p hp
    obtain ⟨k', v'⟩ := hd
    by_cases hk : k' = k
    · rw [insertAssoc, if_pos hk] at hp
      rcases List.mem_cons.mp hp with rfl | h
      · exact hkv
      · exact hl p (List.mem_cons_of_mem _ h)
    · rw [insertAssoc, if_neg hk] at hp
      rcases List.mem_cons.mp hp with rfl | h
      · exact hl _ (List.mem_cons_self _ _)
      · exact ih k v (fun q hq => hl q (List.mem_cons_of_mem _ hq)) hkv p h

theorem foldl_inv {β γ : Type} (P : γ → Prop) (Q : β → Prop) (step : γ → β → γ)
    (hstep : ∀ acc b, Q b → P acc → P (step acc b)) :
    ∀ (l : List β), (∀ b ∈ l, Q b) → ∀ acc, P acc → P (l.foldl step acc) := by
  intro l
  induction l with
  | nil => intro _ acc h; simpa using h
  | cons b bs ih =>
    intro hQ acc h
    exact ih (fun x hx => hQ x (List.mem_cons_of_mem _ hx)) _
      (hstep acc b (hQ b (List.mem_cons_self _ _)) h)

/-- Every option map `_parse_query_options` produces is well-formed. -/
theorem parseQueryOptions_good (s : Str) : GoodMap (parseQueryOptions s) := by
  rw [parseQueryOptions]
  apply foldl_inv GoodMap (fun piece => netDepth piece = 0 ∧ noTop ';' piece 0 = true)
  · intro acc piece hQ hP
    by_cases he : pyStrip piece = []
    · simp only [if_pos he]; exact hP
    · simp only [if_neg he]
      cases hkv : parseSingleQueryOption (pyStrip piece) with
      | mk k v =>
        simp only [hkv]
        by_cases hknil : k = []
        · simp only [if_pos hknil]; exact hP
        · simp only [if_neg hknil]
          have hgood := parseSingleQueryOption_good piece hQ.1 hQ.2 hkv hknil
          exact ⟨nodupKeys_insertAssoc _ _ _ hP.1,
                 entries_insertAssoc _ _ _ _ hP.2 hgood⟩
  · exact fun piece hmem => splitTop_pieces ';' (by decide) s piece hmem
  · exact ⟨List.nodup_nil, by simp⟩

/-- Every entry of a parsed option map originates from one tokenizer piece,
    split at the first `=` with both halves stripped. -/
theorem parseQueryOptions_origin (body : Str) :
    ∀ p ∈ parseQueryOptions body,
      ∃ piece ∈ splitTop ';' body,
        pyStrip piece ≠ [] ∧ parseSingleQueryOption (pyStrip piece) = p := by
  rw [parseQueryOptions]
  apply foldl_inv
    (fun m => ∀ p ∈ m, ∃ piece ∈ splitTop ';' body,
      pyStrip piece ≠ [] ∧ parseSingleQueryOption (pyStrip piece) = p)
    (fun piece => piece ∈ splitTop ';' body)
  · intro acc piece hQ hP
    by_cases he : pyStrip piece = []
    · simp only [if_pos he]; exact hP
    · simp only [if_neg he]
      cases hkv : parseSingleQueryOption (pyStrip piece) with
      | mk k v =>
        simp only [hkv]
        by_cases hknil : k = []
        · simp only [if_pos hknil]; exact hP
        · simp only [if_neg hknil]
          exact entries_insertAssoc _ _ _ _ hP ⟨piece, hQ, he, hkv⟩
  · exact fun b hb => hb
  · simp

/-- C7.  `_parse_query_options` splits the option body on `;` at parenthesis
    depth 0 of that substring; each kept entry comes from one such piece
    split on its first `=`, with the key trimmed and `$`-prefixed (pairs
    without `=` or without the `$` prefix are dropped — every surviving key
    starts with `$`) and the value trimmed only at its outer boundary; and a
    nested `$expand` value is stored as the unparsed opaque string, as in
    `author($expand=posts($top=3))`. -/
theorem c7_option_body_grammar :
    (∀ (body k v : Str), (k, v) ∈ parseQueryOptions body →
      k.head? = some '$' ∧ pyStrip k = k ∧ pyStrip v = v ∧
      ∃ piece ∈ splitTop ';' body,
        '=' ∈ pyStrip piece ∧
        k = pyStrip ((pyStrip piece).takeWhile (· ≠ '=')) ∧
        v = pyStrip (((pyStrip piece).dropWhile (· ≠ '=')).tail)) ∧
    parseExpandFieldsV2 "author($expand=posts($top=3))".toList =
      [("author".toList, [("$expand".toList, "posts($top=3)".toList)])] := by
  constructor
  · intro body k v hmem
    have hgood := (parseQueryOptions_good body).2 (k, v) hmem
    obtain ⟨piece, hpiece, hne, hkv⟩ := parseQueryOptions_origin body (k, v) hmem
    rw [parseSingleQueryOption] at hkv
    by_cases hin : '=' ∈ pyStrip piece
    · rw [if_neg (by simpa using hin)] at hkv
      by_cases hdol : (pyStrip ((pyStrip piece).takeWhile (· ≠ '='))).head? = some '$'
      · rw [if_pos hdol] at hkv
        obtain ⟨hk1, hv1⟩ := Prod.mk.injEq .. ▸ hkv
        exact ⟨hgood.2.1, hgood.2.2.2.1, hgood.2.2.2.2.1,
               piece, hpiece, hin, hk1.symm, hv1.symm⟩
      · rw [if_neg hdol] at hkv
        obtain ⟨hk1, _⟩ := Prod.mk.injEq .. ▸ hkv
        exact absurd hk1.symm hgood.1
    · rw [if_pos hin] at hkv
      obtain ⟨hk1, _⟩ := Prod.mk.injEq .. ▸ hkv
      exact absurd hk1.symm hgood.1
  · decide

/-- C7 witness: the entry `$top = 5` (internal spacing trimmed only at the
    outer boundary, key kept, non-`$` pair dropped) of a concrete body. -/
theorem c7_witness :
    "$top".toList.head? = some '$' ∧ pyStrip "5".toList = "5".toList :=
  ⟨(c7_option_body_grammar.1 " $top = 5 ;notdollar=1".toList "$top".toList
      "5".toList (by decide)).1,
   (c7_option_body_grammar.1 " $top = 5 ;notdollar=1".toList "$top".toList
      "5".toList (by decide)).2.2.1⟩

/-! ## Re-parsing a serialized option map (C10) -/

/-- Scanning a chunk with no top-level delimiter just accumulates it. -/
theorem splitTopAux_chunk (delim : Char) :
    ∀ (E : Str) (d : Int), noTop delim E d = true →
      ∀ (rest cur : Str),
        splitTopAux delim (E ++ rest) cur d =
          splitTopAux delim rest (cur ++ E) (d + netDepth E) := by
  intro E
  induction E with
  | nil =>
    intro d _ rest cur
    rw [List.nil_append, List.append_nil, netDepth_nil, add_zero]
  | cons c E ih =>
    intro d hnt rest cur
    rw [List.cons_append, splitTopAux]
    by_cases h1 : c = '('
    · subst h1
      rw [noTop, if_pos rfl] at hnt
      rw [if_pos rfl, ih (d + 1) hnt rest (cur ++ ['(']), List.append_assoc,
        List.singleton_append, netDepth_cons,
        show parenDelta '(' = 1 from by decide,
        show d + (1 + netDepth E) = d + 1 + netDepth E from by ring]
    · by_cases h2 : c = ')'
      · subst h2
        rw [noTop, if_neg (by decide), if_pos rfl] at hnt
        rw [if_neg h1, if_pos rfl, ih (d - 1) hnt rest (cur ++ [')']),
          List.append_assoc, List.singleton_append, netDepth_cons,
          show parenDelta ')' = -1 from by decide,
          show d + (-1 + netDepth E) = d - 1 + netDepth E from by ring]
      · have hδ : parenDelta c = 0 := by simp [parenDelta, h1, h2]
        by_cases h3 : c = delim
        · subst h3
          rw [noTop, if_neg h1, if_neg h2, if_pos rfl, Bool.and_eq_true,
            decide_eq_true_eq] at hnt
          rw [if_neg h1, if_neg h2, if_neg (fun hc => hnt.1 hc.2),
            ih d hnt.2 rest (cur ++ [c]), List.append_assoc, List.singleton_append,
            netDepth_cons, hδ, zero_add]
        · rw [noTop, if_neg h1, if_neg h2, if_neg h3] at hnt
          rw [if_neg h1, if_neg h2, if_neg (fun hc => h3 hc.1),
            ih d hnt rest (cur ++ [c]), List.append_assoc, List.singleton_append,
            netDepth_cons, hδ, zero_add]

theorem strip_self_getLast {v : Str} (hv : pyStrip v = v) :
    ∀ c, v.getLast? = some c → isPyWs c = false := by
  intro c hc
  rw [← hv] at hc
  exact pyStrip_getLast? v c hc

/-- A well-formed entry's `key=value` string is already stripped. -/
theorem goodEntry_strip_self {k v : Str} (h : GoodEntry k v) :
    pyStrip (k ++ '=' :: v) = k ++ '=' :: v := by
  obtain ⟨hk, hdol, _, hks, hvs, _, _⟩ := h
  apply pyStrip_eq_self
  · intro c hc
    cases k with
    | nil => exact absurd rfl hk
    | cons a k' =>
      rw [List.cons_append] at hc
      have hac : c = a := by
        simp only [List.head?_cons, Option.some.injEq] at hc
        exact hc.symm
      have ha : a = '$' := by simpa using hdol
      rw [hac, ha]
      decide
  · intro c hc
    rw [List.getLast?_append_cons] at hc
    cases v with
    | nil =>
      simp only [List.getLast?_singleton, Option.some.injEq] at hc
      rw [← hc]
      decide
    | cons a v' =>
      rw [List.getLast?_cons_cons] at hc
      exact strip_self_getLast hvs c hc

theorem takeWhile_entry {k : Str} (hk : '=' ∉ k) (v : Str) :
    (k ++ '=' :: v).takeWhile (· ≠ '=') = k := by
  induction k with
  | nil => simp
  | cons c k' ih =>
    have hc : c ≠ '=' := fun hc => hk (hc ▸ List.mem_cons_self c k')
    rw [List.cons_append, List.takeWhile_cons_of_pos (by simpa using hc),
      ih (fun hm => hk (List.mem_cons_of_mem _ hm))]

theorem dropWhile_entry {k : Str} (hk : '=' ∉ k) (v : Str) :
    (k ++ '=' :: v).dropWhile (· ≠ '=') = '=' :: v := by
  induction k with
  | nil => simp
  | cons c k' ih =>
    have hc : c ≠ '=' := fun hc => hk (hc ▸ List.mem_cons_self c k')
    rw [List.cons_append, List.dropWhile_cons_of_pos (by simpa using hc),
      ih (fun hm => hk (List.mem_cons_of_mem _ hm))]

/-- Re-parsing a single serialized entry recovers it. -/
theorem parseSingleQueryOption_entry {k v : Str} (h : GoodEntry k v) :
    parseSingleQueryOption (k ++ '=' :: v) = (k, v) := by
  obtain ⟨hk, hdol, hmem, hks, hvs, _, _⟩ := h
  rw [parseSingleQueryOption,
    if_neg (by simp : ¬ '=' ∉ k ++ '=' :: v),
    takeWhile_entry hmem, dropWhile_entry hmem, List.tail_cons, hks, hvs,
    if_pos hdol]

theorem insertAssoc_append {α : Type} :
    ∀ (l : List (Str × α)) (k : Str) (v : α),
      k ∉ l.map Prod.fst → insertAssoc l k v = l ++ [(k, v)] := by
  intro l
  induction l with
  | nil => intro k v _; rfl
  | cons hd tl ih =>
    intro k v hnk
    obtain ⟨k', v'⟩ := hd
    rw [List.map_cons] at hnk
    have hne : k' ≠ k := fun hc => hnk (hc ▸ List.mem_cons_self _ _)
    rw [insertAssoc, if_neg hne, ih k v (fun hm => hnk (List.mem_cons_of_mem _ hm)),
      List.cons_append]

/-- A well-formed entry string is non-empty. -/
theorem entry_ne_nil {k v : Str} (h : GoodEntry k v) : k ++ '=' :: v ≠ [] := by
  intro hc
  cases k with
  | nil => exact absurd rfl h.1
  | cons a k' => simp at hc

/-- Tokenizing a serialized option map recovers exactly the entry strings
    (the empty serialization yields one blank piece, discarded later). -/
theorem splitTop_serialize :
    ∀ (es : List (Str × Str)), (∀ e ∈ es, GoodEntry e.1 e.2) →
      splitTop ';' (serializeOptions es) =
        if es = [] then [[]] else es.map (fun e => e.1 ++ '=' :: e.2) := by
  intro es
  induction es with
  | nil => intro _; decide
  | cons e es ih =>
    intro hG
    have hGe := hG e (List.mem_cons_self _ _)
    have hnt : noTop ';' (e.1 ++ '=' :: e.2) 0 = true := hGe.2.2.2.2.2.2
    have hnet : netDepth (e.1 ++ '=' :: e.2) = 0 := hGe.2.2.2.2.2.1
    rw [if_neg (by simp)]
    cases es with
    | nil =>
      show splitTopAux ';' ((e.1 ++ '=' :: e.2) ++ [';']) [] 0 = _
      rw [splitTopAux_chunk ';' (e.1 ++ '=' :: e.2) 0 hnt [';'] [], hnet, add_zero,
        List.nil_append]
      rw [splitTopAux, if_neg (by decide), if_neg (by decide), if_pos ⟨rfl, rfl⟩]
      rfl
    | cons e' es' =>
      have hser : serializeOptions (e :: e' :: es') =
          (e.1 ++ '=' :: e.2) ++ ';' :: serializeOptions (e' :: es') := by
        rw [serializeOptions]
        simp
      rw [hser]
      show splitTopAux ';'
          (((e.1 ++ '=' :: e.2) ++ ';' :: serializeOptions (e' :: es')) ++ [';']) [] 0 = _
      rw [List.append_assoc, List.cons_append,
        splitTopAux_chunk ';' (e.1 ++ '=' :: e.2) 0 hnt _ [], hnet, add_zero,
        List.nil_append]
      rw [splitTopAux, if_neg (by decide), if_neg (by decide), if_pos ⟨rfl, rfl⟩]
      have ih' := ih (fun x hx => hG x (List.mem_cons_of_mem _ hx))
      rw [if_neg (by simp)] at ih'
      rw [List.map_cons]
      exact congrArg _ ih'

/-- Folding the re-parse step over serialized entries appends them to the
    accumulator unchanged. -/
theorem reparse_foldl :
    ∀ (es : List (Str × Str)) (acc : List (Str × Str)),
      (∀ e ∈ es, GoodEntry e.1 e.2) → (es.map Prod.fst).Nodup →
      (∀ e ∈ es, e.1 ∉ acc.map Prod.fst) →
      ((es.map (fun e => e.1 ++ '=' :: e.2)).foldl
        (fun m piece =>
          if pyStrip piece = [] then m
          else
            let kv := parseSingleQueryOption (pyStrip piece)
            if kv.1 = [] then m else insertAssoc m kv.1 kv.2)
        acc) = acc ++ es := by
  intro es
  induction es with
  | nil => intro acc _ _ _; simp
  | cons e es ih =>
    intro acc hG hnd hdisj
    have hGe := hG e (List.mem_cons_self _ _)
    have hstrip : pyStrip (e.1 ++ '=' :: e.2) = e.1 ++ '=' :: e.2 :=
      goodEntry_strip_self hGe
    have hne : e.1 ++ '=' :: e.2 ≠ [] := entry_ne_nil hGe
    rw [List.map_cons, List.foldl_cons]
    have hstep :
        (if pyStrip (e.1 ++ '=' :: e.2) = [] then acc
         else
           let kv := parseSingleQueryOption (pyStrip (e.1 ++ '=' :: e.2))
           if kv.1 = [] then acc else insertAssoc acc kv.1 kv.2) =
          acc ++ [e] := by
      rw [if_neg (by rw [hstrip]; exact hne), hstrip, parseSingleQueryOption_entry hGe]
      simp only [if_neg hGe.1]
      exact insertAssoc_append acc e.1 e.2 (hdisj e (List.mem_cons_self _ _))
    rw [hstep, ih (acc ++ [e]) (fun x hx => hG x (List.mem_cons_of_mem _ hx))
      (by rw [List.map_cons, List.nodup_cons] at hnd; exact hnd.2) ?_,
      List.append_assoc, List.singleton_append]
    intro x hx
    rw [List.map_append, List.map_cons]
    intro hmem
    rcases List.mem_append.mp hmem with hmem1 | hmem2
    · exact hdisj x (List.mem_cons_of_mem _ hx) hmem1
    · rw [List.map_cons, List.nodup_cons] at hnd
      have : x.1 = e.1 := by simpa using hmem2
      exact hnd.1 (this ▸ List.mem_map_of_mem Prod.fst hx)

/-- Re-parsing the serialization of a well-formed option map gives it back. -/
theorem parseQueryOptions_serialize (es : List (Str × Str))
    (hG : ∀ e ∈ es, GoodEntry e.1 e.2) (hnd : (es.map Prod.fst).Nodup) :
    parseQueryOptions (serializeOptions es) = es := by
  rw [parseQueryOptions, splitTop_serialize es hG]
  by_cases hes : es = []
  · subst hes; decide
  · rw [if_neg hes]
    have h := reparse_foldl es [] hG hnd (by simp)
    rw [h, List.nil_append]

/-- Lookups in duplicate-free association lists are invariant under
    permutation. -/
theorem lookupA_perm {α : Type} {l₁ l₂ : List (Str × α)} (hp : l₁.Perm l₂)
    (hnd : (l₁.map Prod.fst).Nodup) (k : Str) : lookupA k l₁ = lookupA k l₂ := by
  induction hp with
  | nil => rfl
  | cons x hp ih =>
    obtain ⟨a, b⟩ := x
    rw [lookupA, lookupA]
    split
    · rfl
    · exact ih (by rw [List.map_cons, List.nodup_cons] at hnd; exact hnd.2)
  | swap x y l =>
    obtain ⟨a, b⟩ := x
    obtain ⟨c, d⟩ := y
    rw [List.map_cons, List.map_cons, List.nodup_cons] at hnd
    have hne : c ≠ a := fun hc => hnd.1 (hc ▸ List.mem_cons_self _ _)
    rw [lookupA, lookupA, lookupA, lookupA]
    by_cases hck : c = k
    · rw [if_pos hck, if_neg (fun hak => hne (hck.trans hak.symm)), if_pos hck]
    · rw [if_neg hck]
      by_cases hak : a = k
      · rw [if_pos hak, if_pos hak]
      · rw [if_neg hak, if_neg hak, if_neg hck]
  | trans hp₁ hp₂ ih₁ ih₂ =>
    rw [ih₁ hnd, ih₂ ((hp₁.map Prod.fst).nodup hnd)]

/-- Every option map stored in a parsed expansion tree is well-formed. -/
theorem parseSingleExpandFieldV2_good (x : Str) :
    GoodMap (parseSingleExpandFieldV2 x).2 := by
  rw [parseSingleExpandFieldV2]
  repeat' split
  all_goals first
    | exact ⟨List.nodup_nil, by simp⟩
    | exact parseQueryOptions_good _

theorem parseExpandFieldsV2_values_good (e : Str) :
    ∀ fo ∈ parseExpandFieldsV2 e, GoodMap fo.2 := by
  rw [parseExpandFieldsV2]
  refine foldl_inv
    (fun (m : List (Str × List (Str × Str))) => ∀ fo ∈ m, GoodMap fo.2)
    (fun (_ : Str) => True) _ ?_ _ (fun _ _ => trivial) _ (by simp)
  intro acc piece _ hP
  by_cases he : pyStrip piece = []
  · simp only [if_pos he]; exact hP
  · simp only [if_neg he]
    exact entries_insertAssoc _ _ _ _ hP (parseSingleExpandFieldV2_good _)

/-- C10.  For every expansion string with balanced parentheses, each field's
    parsed option map survives a re-serialization round trip: serializing the
    entries as `key=value;...` in any order and re-parsing with
    `_parse_query_options` yields exactly those entries, hence the same
    option map under lookup. -/
theorem c10_option_map_roundtrip :
    ∀ (e : Str), balancedParens e = true →
    ∀ (fld : Str) (opts : List (Str × Str)), (fld, opts) ∈ parseExpandFieldsV2 e →
    ∀ (es : List (Str × Str)), es.Perm opts →
      parseQueryOptions (serializeOptions es) = es ∧
      ∀ k, lookupA k (parseQueryOptions (serializeOptions es)) = lookupA k opts := by
  intro e _ fld opts hmem es hperm
  have hG : GoodMap opts := parseExpandFieldsV2_values_good e (fld, opts) hmem
  have hGes : ∀ x ∈ es, GoodEntry x.1 x.2 := fun x hx => hG.2 x (hperm.subset hx)
  have hnd : (es.map Prod.fst).Nodup := ((hperm.map Prod.fst).symm).nodup hG.1
  have heq := parseQueryOptions_serialize es hGes hnd
  refine ⟨heq, fun k => ?_⟩
  rw [heq]
  exact lookupA_perm hperm hnd k

/-- C10 witness: the options of `author($select=name,email;$top=3)`,
    serialized in the opposite order, re-parse to the same map. -/
theorem c10_witness :
    parseQueryOptions (serializeOptions
        [("$top".toList, "3".toList), ("$select".toList, "name,email".toList)]) =
      [("$top".toList, "3".toList), ("$select".toList, "name,email".toList)] :=
  (c10_option_map_roundtrip "author($select=name,email;$top=3)".toList (by decide)
    "author".toList
    [("$select".toList, "name,email".toList), ("$top".toList, "3".toList)]
    (by decide)
    [("$top".toList, "3".toList), ("$select".toList, "name,email".toList)]
    (by decide)).1

/-! ## C8: characterization of the selection parser -/

theorem mem_firstDedupAux :
    ∀ (l seen : List Str) (x : Str), x ∈ firstDedupAux l seen ↔ x ∈ l ∧ x ∉ seen := by
  intro l
  induction l with
  | nil => intro seen x; simp [firstDedupAux]
  | cons a l ih =>
    intro seen x
    rw [firstDedupAux]
    by_cases ha : a ∈ seen
    · rw [if_pos ha, ih]
      constructor
      · rintro ⟨hx, hns⟩
        exact ⟨List.mem_cons_of_mem _ hx, hns⟩
      · rintro ⟨hx, hns⟩
        rcases List.mem_cons.mp hx with rfl | hx'
        · exact absurd ha hns
        · exact ⟨hx', hns⟩
    · rw [if_neg ha]
      constructor
      · intro hx
        rcases List.mem_cons.mp hx with rfl | hx'
        · exact ⟨List.mem_cons_self _ _, ha⟩
        · have h' := (ih (a :: seen) x).mp hx'
          exact ⟨List.mem_cons_of_mem _ h'.1,
                 fun hs => h'.2 (List.mem_cons_of_mem _ hs)⟩
      · rintro ⟨hx, hns⟩
        rcases List.mem_cons.mp hx with rfl | hx'
        · exact List.mem_cons_self _ _
        · by_cases hxa : x = a
          · subst hxa; exact List.mem_cons_self _ _
          · refine List.mem_cons_of_mem _ ((ih _ x).mpr ⟨hx', ?_⟩)
            intro hs
            rcases List.mem_cons.mp hs with h | h
            · exact hxa h
            · exact hns h

theorem firstDedupAux_congr :
    ∀ (l seen seen' : List Str), (∀ x, x ∈ seen ↔ x ∈ seen') →
      firstDedupAux l seen = firstDedupAux l seen' := by
  intro l
  induction l with
  | nil => intro seen seen' _; rfl
  | cons a l ih =>
    intro seen seen' h
    rw [firstDedupAux, firstDedupAux]
    by_cases ha : a ∈ seen
    · rw [if_pos ha, if_pos ((h a).mp ha)]
      exact ih _ _ h
    · rw [if_neg ha, if_neg (fun hc => ha ((h a).mpr hc))]
      refine congrArg _ (ih _ _ (fun x => ?_))
      rw [List.mem_cons, List.mem_cons, h x]

theorem lookupA_addNested :
    ∀ (n : List (Str × List Str)) (q c p : Str),
      lookupA p (addNested n q c) =
        if p = q then
          (match lookupA q n with
           | none => some [c]
           | some cs => some (if c ∈ cs then cs else cs ++ [c]))
        else lookupA p n := by
  intro n
  induction n with
  | nil =>
    intro q c p
    by_cases hq : p = q
    · subst hq; simp [addNested, lookupA]
    · simp [addNested, lookupA, hq, Ne.symm hq]
  | cons hd tl ih =>
    intro q c p
    obtain ⟨p', cs⟩ := hd
    by_cases hpq : p' = q
    · subst hpq
      by_cases hp : p' = p
      · subst hp; simp [addNested, lookupA]
      · simp [addNested, lookupA, hp, Ne.symm hp]
    · by_cases hp : p' = p
      · subst hp; simp [addNested, lookupA, hpq, Ne.symm hpq]
      · simp [addNested, lookupA, hpq, hp, ih q c p]

theorem childrenFor_cons (p f : Str) (segs : List Str) :
    childrenFor p (f :: segs) =
      if '.' ∈ f ∧ parentOf f = p then childOf f :: childrenFor p segs
      else childrenFor p segs := by
  rw [childrenFor, List.filterMap_cons, childrenFor]
  by_cases h : '.' ∈ f ∧ parentOf f = p
  · rw [if_pos h, if_pos h]
  · rw [if_neg h, if_neg h]

theorem selectStep_foldl :
    ∀ (segs : List Str) (tl0 : List Str) (n0 : List (Str × List Str)),
      (segs.foldl selectStep (tl0, n0)).1 =
          tl0 ++ firstDedupAux (segs.map parentOf) tl0 ∧
      ∀ p, lookupA p (segs.foldl selectStep (tl0, n0)).2 =
          childUpd (lookupA p n0) (childrenFor p segs) := by
  intro segs
  induction segs with
  | nil =>
    intro tl0 n0
    constructor
    · simp [firstDedupAux]
    · intro p
      simp only [List.foldl_nil]
      cases h : lookupA p n0 with
      | none => rw [childUpd]; simp [childrenFor]
      | some cs => rw [childUpd]; simp [childrenFor, firstDedupAux]
  | cons f segs ih =>
    intro tl0 n0
    rw [List.foldl_cons]
    by_cases hdot : '.' ∈ f
    · have hstep : selectStep (tl0, n0) f =
          ((if parentOf f ∈ tl0 then tl0 else tl0 ++ [parentOf f]),
           addNested n0 (parentOf f) (childOf f)) := by
        rw [selectStep, if_pos hdot, parentOf, if_pos hdot, childOf]
      rw [hstep]
      constructor
      · rw [(ih _ _).1, List.map_cons, firstDedupAux]
        by_cases hmem : parentOf f ∈ tl0
        · rw [if_pos hmem, if_pos hmem]
        · rw [if_neg hmem, if_neg hmem, List.append_assoc, List.singleton_append]
          refine congrArg _ (congrArg _ (firstDedupAux_congr _ _ _ (fun x => ?_)))
          simp [or_comm]
      · intro p
        rw [(ih _ _).2 p, lookupA_addNested, childrenFor_cons]
        by_cases hp : p = parentOf f
        · rw [if_pos hp, if_pos ⟨hdot, hp.symm⟩, hp]
          cases hq : lookupA (parentOf f) n0 with
          | none =>
            rw [childUpd, childUpd, if_neg (by simp), firstDedupAux,
              if_neg (List.not_mem_nil _), List.singleton_append]
          | some cs =>
            rw [childUpd, childUpd, firstDedupAux]
            by_cases hcs : childOf f ∈ cs
            · rw [if_pos hcs, if_pos hcs]
            · rw [if_neg hcs, if_neg hcs, List.append_assoc, List.singleton_append]
              refine congrArg _ (congrArg _ (congrArg _
                (firstDedupAux_congr _ _ _ (fun x => ?_))))
              simp [or_comm]
        · rw [if_neg hp, if_neg (fun hc => hp hc.2.symm)]
    · have hpf : parentOf f = f := by rw [parentOf, if_neg hdot]
      have hstep : selectStep (tl0, n0) f =
          ((if f ∈ tl0 then tl0 else tl0 ++ [f]), n0) := by
        rw [selectStep, if_neg hdot]
      rw [hstep]
      constructor
      · rw [(ih _ _).1, List.map_cons, hpf, firstDedupAux]
        by_cases hmem : f ∈ tl0
        · rw [if_pos hmem, if_pos hmem]
        · rw [if_neg hmem, if_neg hmem, List.append_assoc, List.singleton_append]
          refine congrArg _ (congrArg _ (firstDedupAux_congr _ _ _ (fun x => ?_)))
          simp [or_comm]
      · intro p
        rw [(ih _ _).2 p, childrenFor_cons, if_neg (fun hc => hdot hc.1)]

theorem all_ws_of_strip_nil (s : Str) (h : pyStrip s = []) : ∀ c ∈ s, isPyWs c = true := by
  obtain ⟨w1, w2, hdec, h1, h2⟩ := pyStrip_decomp s
  rw [h, List.append_nil] at hdec
  intro c hc
  rw [hdec] at hc
  rcases List.mem_append.mp hc with hc' | hc'
  · exact h1 c hc'
  · exact h2 c hc'

theorem selectSegments_of_strip_nil (s : Str) (h : pyStrip s = []) :
    selectSegments s = [] := by
  have hws := all_ws_of_strip_nil s h
  have hsplit : s.splitOn ',' = [s] := by
    rw [List.splitOn]
    apply List.splitOnP_eq_single
    intro x hx
    have := (isPyWs_char x (hws x hx)).2.2.1
    simpa using this
  rw [selectSegments, hsplit, List.map_cons, List.map_nil, h]
  rfl

/-- C8.  `parse_select_fields` splits on `,`, strips segments, drops blanks,
    and is extensionally the first-occurrence structure of the claim: the
    top level is the deduplicated (first appearance kept) list of parents —
    the whole segment when undotted, the part before the first `.` when
    dotted — and `nested[p]` is exactly the deduplicated, order-preserving
    list of children of `p`, present iff `p` has a dotted segment; empty or
    whitespace-only input yields the empty tree. -/
theorem c8_selection_parser_characterization :
    ∀ s : Str,
      (parse_select_fields s).1 = firstDedup ((selectSegments s).map parentOf) ∧
      (∀ p, lookupA p (parse_select_fields s).2 =
        (if childrenFor p (selectSegments s) = [] then none
         else some (firstDedup (childrenFor p (selectSegments s))))) ∧
      (pyStrip s = [] → parse_select_fields s = ([], [])) := by
  intro s
  by_cases hstrip : pyStrip s = []
  · have hsegs := selectSegments_of_strip_nil s hstrip
    rw [parse_select_fields, if_pos hstrip, hsegs]
    refine ⟨by simp [firstDedup, firstDedupAux], fun p => ?_, fun _ => rfl⟩
    rw [show childrenFor p [] = [] from rfl, if_pos rfl, lookupA]
  · rw [parse_select_fields, if_neg hstrip]
    obtain ⟨h1, h2⟩ := selectStep_foldl (selectSegments s) [] []
    refine ⟨by rw [h1, List.nil_append, firstDedup], fun p => ?_, fun hc => absurd hc hstrip⟩
    rw [h2 p, lookupA, childUpd, firstDedup]

/-- C8 witness: the spec's concrete selection, and a whitespace-only
    input. -/
theorem c8_witness :
    (parse_select_fields "id,title,author.name,author.email".toList).1 =
      firstDedup ((selectSegments "id,title,author.name,author.email".toList).map
        parentOf) ∧
    parse_select_fields "  ".toList = ([], []) :=
  ⟨(c8_selection_parser_characterization _).1,
   (c8_selection_parser_characterization "  ".toList).2.2 (by decide)⟩

end DjangoOData
